import Mathlib

/-!
Shallow embedding of SimpleOS (`src/Claude/SimpleOS/main.c`) and proofs about
its resource-management core: the block allocator, the process table with
round-robin scheduler, and the file table.

Modelling conventions:
* C `char*` strings are modelled as `List Nat` of their byte values before the
  terminating 0 byte; reading index `j` of a C string is `l.getD j 0`, which
  returns the terminator (0) at and past the end of the list.
* Machine integers are `Nat`; the only arithmetic that can wrap in the source
  is the `uint8_t` `process_count` increment/decrement, embedded as
  `(c + 1) % 256` and `(c + 255) % 256`.
* The global `OS` struct becomes an explicit state record threaded through
  every operation.  The `memory` byte array and the `system_running` flag are
  omitted: no operation of the core ever reads or writes them (the shell is
  out of scope).  Storing a name replaces the whole name field; the C code
  leaves stale bytes after the new terminator, but no operation ever reads a
  stored name past its first 0 byte, so the observable behaviour agrees.
* Constants from the source: MAX_PROCESSES = 16, MAX_FILES = 32,
  MAX_FILENAME_LEN = 32, MEMORY_SIZE = 65536, PROCESS_MEMORY_SIZE = 4096,
  so there are 65536 / 4096 = 16 memory blocks.
-/

/-- Byte `j` of the C string whose pre-terminator bytes are `s`. -/
def cAt (s : List Nat) (j : Nat) : Nat := s.getD j 0

/-- The bounded name-copy loop `while (name[i] != '\0' && i < 31)` shared by
`process_create` and `fs_create` (both copy at most 31 bytes and then write
the terminator); `copyAux s i fuel` is the list of bytes written from index
`i`.  All recursive loop helpers in this file take an explicit fuel argument
for structural recursion; the fuel-0 result always equals the loop-exit
result, and every top-level call passes exactly enough fuel (here `31 - i`
bounds the remaining iterations, and `copyName` passes 31 at `i = 0`). -/
def copyAux (s : List Nat) (i : Nat) : Nat → List Nat
  | 0 => []
  | fuel + 1 => if cAt s i ≠ 0 ∧ i < 31 then cAt s i :: copyAux s (i + 1) fuel else []

/-- The stored form of name `s`: the copy loop run from index 0. -/
def copyName (s : List Nat) : List Nat := copyAux s 0 31

/-- The filename-comparison loop of `fs_create` / `fs_delete`:
`for (j = 0; j < 32; j++) { if (stored[j] != arg[j]) {match=false;break;}
if (arg[j]=='\0') break; }`, started at index `j`. -/
def matchAux (stored arg : List Nat) (j : Nat) : Nat → Bool
  | 0 => true
  | fuel + 1 =>
    if j < 32 then
      if cAt stored j ≠ cAt arg j then false
      else if cAt arg j = 0 then true
      else matchAux stored arg (j + 1) fuel
    else true

/-- Whole-name comparison used by the file system (loop from index 0). -/
def nameMatch (stored arg : List Nat) : Bool := matchAux stored arg 0 32

/-- `ProcessState` from the source. -/
inductive ProcessState where
  | ready
  | running
  | blocked
  | terminated
  deriving DecidableEq

/-- `Process` (process control block) from the source. -/
structure Process where
  id : Nat
  state : ProcessState
  memory_start : Nat
  memory_size : Nat
  program_counter : Nat
  name : List Nat
  deriving DecidableEq

/-- `FileEntry` from the source. -/
structure FileEntry where
  filename : List Nat
  start_block : Nat
  size : Nat
  in_use : Bool
  deriving DecidableEq

/-- The `OS` state struct (minus the never-accessed `memory` byte array and
the shell-only `system_running` flag). -/
structure OS where
  memory_map : List Bool
  processes : List Process
  current_process : Nat
  process_count : Nat
  file_table : List FileEntry
  deriving DecidableEq

/-- A process slot as it is after startup: the zero-initialised global struct
followed by `process_init` setting every state to `PROCESS_TERMINATED`. -/
def pInit : Process :=
  { id := 0, state := .terminated, memory_start := 0, memory_size := 0,
    program_counter := 0, name := [] }

/-- A file slot as it is after startup (`fs_init` clears `in_use`; the
zero-initialised global gives the remaining fields). -/
def fInit : FileEntry := { filename := [], start_block := 0, size := 0, in_use := false }

/-- The system state after `os_init` (= `memory_init` + `process_init` +
`fs_init` on the zero-initialised global). -/
def os_init : OS :=
  { memory_map := List.replicate 16 false,
    processes := List.replicate 16 pInit,
    current_process := 0,
    process_count := 0,
    file_table := List.replicate 32 fInit }

/-- The scan loop of `memory_allocate`, from block index `i`. -/
def memAllocAux (s : OS) (i : Nat) : Nat → Nat × OS
  | 0 => (65535, s)
  | fuel + 1 =>
    if i < 16 then
      if s.memory_map.getD i false = false then
        (i * 4096, { s with memory_map := s.memory_map.set i true })
      else memAllocAux s (i + 1) fuel
    else (65535, s)

/-- `memory_allocate`: first-free-block scan; returns the byte offset of the
block it marked used, or `0xFFFF` when every block is used. -/
def memory_allocate (s : OS) : Nat × OS := memAllocAux s 0 16

/-- `memory_free`: clears the bitmap flag of block `start_address / 4096`
when that index is in range. -/
def memory_free (start_address : Nat) (s : OS) : OS :=
  if start_address / 4096 < 16 then
    { s with memory_map := s.memory_map.set (start_address / 4096) false }
  else s

/-- The free-slot scan of `process_create`:
`while (pid < MAX_PROCESSES && processes[pid].state != PROCESS_TERMINATED) pid++`. -/
def findSlotAux (s : OS) (pid : Nat) : Nat → Nat
  | 0 => pid
  | fuel + 1 =>
    if pid < 16 then
      if (s.processes.getD pid pInit).state ≠ .terminated then findSlotAux s (pid + 1) fuel
      else pid
    else pid

/-- Which failure branch of `process_create` fired.  The C function returns
the single value `0xFF` for every failure; the two constructors record the
return site, per the source comments: `tableFull` for "max processes
reached" / "no free process slots", `outOfMemory` for "out of memory". -/
inductive CreateErr where
  | tableFull
  | outOfMemory
  deriving DecidableEq

deriving instance DecidableEq for Except

/-- `process_create`: capacity check, free-slot scan, block allocation, then
slot initialisation (state `READY`, one 4096-byte block, pc 0, truncated
name) and `process_count++`. -/
def process_create (name : List Nat) (s : OS) : Except CreateErr Nat × OS :=
  if 16 ≤ s.process_count then (.error .tableFull, s)
  else
    let pid := findSlotAux s 0 16
    if 16 ≤ pid then (.error .tableFull, s)
    else
      let r := memory_allocate s
      if r.1 = 65535 then (.error .outOfMemory, r.2)
      else
        let p : Process :=
          { id := pid, state := .ready, memory_start := r.1,
            memory_size := 4096, program_counter := 0, name := copyName name }
        (.ok pid,
          { r.2 with
            processes := r.2.processes.set pid p,
            process_count := (r.2.process_count + 1) % 256 })

/-- Overwriting the `state` field of a process control block. -/
def setState (p : Process) (st : ProcessState) : Process :=
  { p with state := st }

/-- `process_terminate`: no-op on an out-of-range or already-terminated pid;
otherwise frees the slot's memory block, marks the slot `TERMINATED` and
decrements the (`uint8_t`) live count. -/
def process_terminate (pid : Nat) (s : OS) : OS :=
  if 16 ≤ pid ∨ (s.processes.getD pid pInit).state = .terminated then s
  else
    let s1 := memory_free (s.processes.getD pid pInit).memory_start s
    { s1 with
      processes := s1.processes.set pid (setState
        (s1.processes.getD pid pInit) ProcessState.terminated),
      process_count := (s1.process_count + 255) % 256 }

/-- The body executed by `process_schedule` when the scan finds a `READY`
slot `next`: demote the current process if it is `RUNNING`, then make `next`
current and `RUNNING`. -/
def promote (s : OS) (next : Nat) : OS :=
  let s1 :=
    if (s.processes.getD s.current_process pInit).state = .running then
      { s with processes := s.processes.set s.current_process (setState
          (s.processes.getD s.current_process pInit) ProcessState.ready) }
    else s
  { s1 with
    current_process := next,
    processes := s1.processes.set next (setState
      (s1.processes.getD next pInit) ProcessState.running) }

/-- The round-robin scan loop of `process_schedule`
(`while (next_process != current_process) ...`), written with explicit fuel;
starting from `(current+1) % 16` with `current < 16` the loop body runs at
most 16 times before `next` returns to `current`, so fuel 16 is exact. -/
def schedAux (s : OS) (next : Nat) : Nat → OS
  | 0 => s
  | fuel + 1 =>
    if next = s.current_process then s
    else if (s.processes.getD next pInit).state = .ready then promote s next
    else schedAux s ((next + 1) % 16) fuel

/-- `process_schedule`: no-op when `process_count == 0`, otherwise the
round-robin scan starting just after the current slot. -/
def process_schedule (s : OS) : OS :=
  if s.process_count = 0 then s
  else schedAux s ((s.current_process + 1) % 16) 16

/-- The free-entry scan of `fs_create` (`file_id = -1` when no slot is free). -/
def findFreeFileAux (s : OS) (i : Nat) : Nat → Int
  | 0 => -1
  | fuel + 1 =>
    if i < 32 then
      if (s.file_table.getD i fInit).in_use = false then (i : Int)
      else findFreeFileAux s (i + 1) fuel
    else -1

/-- The duplicate-name scan of `fs_create`, from entry `i`. -/
def dupAux (filename : List Nat) (s : OS) (i : Nat) : Nat → Bool
  | 0 => false
  | fuel + 1 =>
    if i < 32 then
      if (s.file_table.getD i fInit).in_use ∧
          nameMatch (s.file_table.getD i fInit).filename filename then true
      else dupAux filename s (i + 1) fuel
    else false

/-- The file entry that `fs_create` writes into the free slot: truncated
name, size 0, placeholder block 0, marked in use. -/
def mkFile (filename : List Nat) : FileEntry :=
  { filename := copyName filename, start_block := 0, size := 0, in_use := true }

/-- `fs_create`: free-slot scan first (`-1` when full, before any duplicate
check), then duplicate scan (`-2`), then populate the free slot with the
truncated name, size 0, placeholder block 0, and mark it in use. -/
def fs_create (filename : List Nat) (s : OS) : Int × OS :=
  let file_id := findFreeFileAux s 0 32
  if file_id = -1 then (-1, s)
  else if dupAux filename s 0 32 then (-2, s)
  else (file_id, { s with file_table := s.file_table.set file_id.toNat (mkFile filename) })

/-- Clearing the `in_use` flag of a file entry. -/
def clearUse (e : FileEntry) : FileEntry :=
  { e with in_use := false }

/-- The scan-and-clear loop of `fs_delete`, from entry `i`. -/
def fsDeleteAux (filename : List Nat) (s : OS) (i : Nat) : Nat → Bool × OS
  | 0 => (false, s)
  | fuel + 1 =>
    if i < 32 then
      if (s.file_table.getD i fInit).in_use ∧
          nameMatch (s.file_table.getD i fInit).filename filename then
        (true, { s with file_table := s.file_table.set i (clearUse
          (s.file_table.getD i fInit)) })
      else fsDeleteAux filename s (i + 1) fuel
    else (false, s)

/-- `fs_delete`: clear `in_use` on the first in-use entry with a matching
name; report whether one was found. -/
def fs_delete (filename : List Nat) (s : OS) : Bool × OS := fsDeleteAux filename s 0 32

/-! ### Derived definitions: invariants, reachability, scenario states -/

/-- The liveness predicate counted by `process_count`. -/
def liveP : Process → Bool := fun p => decide (p.state ≠ ProcessState.terminated)

/-- Invariant of the process subsystem: well-formed table lengths, an
in-range current slot, a live count that counts the non-terminated slots,
and no `RUNNING` slot other than the current one. -/
def SysInv (s : OS) : Prop :=
  s.memory_map.length = 16 ∧ s.processes.length = 16 ∧ s.file_table.length = 32 ∧
  s.current_process < 16 ∧
  s.process_count = s.processes.countP liveP ∧
  ∀ i, i < 16 → (s.processes.getD i pInit).state = .running → i = s.current_process

/-- States reachable from the initialized system by process operations only
(`process_create`, `process_terminate`, `process_schedule`), with arbitrary
arguments. -/
inductive PReach : OS → Prop where
  | init : PReach os_init
  | create (s : OS) (nm : List Nat) : PReach s → PReach (process_create nm s).2
  | term (s : OS) (pid : Nat) : PReach s → PReach (process_terminate pid s)
  | sched (s : OS) : PReach s → PReach (process_schedule s)

/-- States reachable from the initialized system by process operations and
direct allocator calls (`memory_allocate`, `memory_free`), with arbitrary
arguments. -/
inductive SysReach : OS → Prop where
  | init : SysReach os_init
  | create (s : OS) (nm : List Nat) : SysReach s → SysReach (process_create nm s).2
  | term (s : OS) (pid : Nat) : SysReach s → SysReach (process_terminate pid s)
  | sched (s : OS) : SysReach s → SysReach (process_schedule s)
  | alloc (s : OS) : SysReach s → SysReach (memory_allocate s).2
  | free (s : OS) (a : Nat) : SysReach s → SysReach (memory_free a s)

/-- States reachable from the initialized system by file operations whose
`fs_create` arguments fit the 32-byte name field (at most 31 bytes before
the terminator); `fs_delete` arguments are unrestricted. -/
inductive FsReach : OS → Prop where
  | init : FsReach os_init
  | create (s : OS) (nm : List Nat) (h : nm.length ≤ 31) :
      FsReach s → FsReach (fs_create nm s).2
  | delete (s : OS) (nm : List Nat) : FsReach s → FsReach (fs_delete nm s).2

/-- Invariant of the file table: well-formed length, stored names of in-use
entries are 0-free and fit the field, and are pairwise distinct. -/
def FsInv (s : OS) : Prop :=
  s.file_table.length = 32 ∧
  (∀ i, i < 32 → (s.file_table.getD i fInit).in_use = true →
    (∀ x ∈ (s.file_table.getD i fInit).filename, x ≠ 0) ∧
    (s.file_table.getD i fInit).filename.length ≤ 31) ∧
  ∀ i j, i < 32 → j < 32 → i ≠ j →
    (s.file_table.getD i fInit).in_use = true →
    (s.file_table.getD j fInit).in_use = true →
    (s.file_table.getD i fInit).filename ≠ (s.file_table.getD j fInit).filename

/-- The process record that `process_create` writes into slot `pid` when the
allocator returned offset `ms`. -/
def mkReady (pid ms : Nat) (nm : List Nat) : Process :=
  { id := pid, state := .ready, memory_start := ms, memory_size := 4096,
    program_counter := 0, name := copyName nm }

/-- The state after successfully creating the processes named in `ns` (in
order) from the initialized system: slots below `ns.length` are ready with
consecutive blocks, the rest untouched. -/
def FullSt (ns : List (List Nat)) : OS :=
  { memory_map := (List.range 16).map (fun i => decide (i < ns.length)),
    processes := (List.range 16).map (fun i =>
      if i < ns.length then mkReady i (i * 4096) (ns.getD i []) else pInit),
    current_process := 0,
    process_count := ns.length,
    file_table := List.replicate 32 fInit }

/-- `FullSt ns` (for 16 names) after terminating process `k`. -/
def KillSt (ns : List (List Nat)) (k : Nat) : OS :=
  { memory_map := (List.range 16).map (fun i => decide (i ≠ k)),
    processes := (List.range 16).map (fun i =>
      if i = k then setState (mkReady k (k * 4096) (ns.getD k [])) ProcessState.terminated
      else mkReady i (i * 4096) (ns.getD i [])),
    current_process := 0,
    process_count := 15,
    file_table := List.replicate 32 fInit }

/-- Folding `process_create` over a list of names. -/
def createSeq (ns : List (List Nat)) (s : OS) : OS :=
  ns.foldl (fun t nm => (process_create nm t).2) s

/-- Iterating `memory_allocate` from the initialized system. -/
def allocIter : Nat → OS
  | 0 => os_init
  | n + 1 => (memory_allocate (allocIter n)).2

/-- Filling the file table with the single-byte names `[1] .. [n]`. -/
def fsFill : Nat → OS
  | 0 => os_init
  | n + 1 => (fs_create [n + 1] (fsFill n)).2

/-! ### List helpers -/

/-- Reading a just-written slot. -/
theorem getD_set_eq {α : Type} (l : List α) (i : Nat) (a d : α) (h : i < l.length) :
    (l.set i a).getD i d = a := by
  rw [List.getD_eq_getElem _ _ (by simpa using h)]
  simp [List.getElem_set]

/-- Reading a slot other than the written one. -/
theorem getD_set_ne {α : Type} (l : List α) (i j : Nat) (a d : α) (h : i ≠ j) :
    (l.set i a).getD j d = l.getD j d := by
  rcases Nat.lt_or_ge j l.length with hj | hj
  · rw [List.getD_eq_getElem _ _ (by simpa using hj), List.getD_eq_getElem _ _ hj]
    simp [List.getElem_set, h]
  · rw [List.getD_eq_getElem?_getD, List.getD_eq_getElem?_getD,
      List.getElem?_eq_none (by simpa using hj), List.getElem?_eq_none hj]

/-- Writing back the value already stored changes nothing. -/
theorem set_getD_self {α : Type} (l : List α) (i : Nat) (d : α) (h : i < l.length) :
    l.set i (l.getD i d) = l := by
  apply List.ext_getElem (by simp)
  intro k h1 h2
  rw [List.getElem_set]
  split
  · next heq => subst heq; rw [List.getD_eq_getElem _ _ h]
  · rfl

/-- Reading an element of `(List.range m).map f`. -/
theorem getD_range_map {α : Type} (f : Nat → α) (m i : Nat) (d : α) (h : i < m) :
    ((List.range m).map f).getD i d = f i := by
  rw [List.getD_eq_getElem _ _ (by simpa using h)]
  simp

/-- Updating one slot of `(List.range m).map f` yields another range-map. -/
theorem map_range_set {α : Type} (m : Nat) (f g : Nat → α) (n : Nat) (a : α)
    (hn : n < m) (hg : ∀ i, i < m → g i = if n = i then a else f i) :
    ((List.range m).map f).set n a = (List.range m).map g := by
  apply List.ext_getElem (by simp)
  intro k h1 h2
  have hk : k < m := by simpa using h2
  simp only [List.getElem_set, List.getElem_map, List.getElem_range]
  rw [hg k hk]

/-- How `List.countP` changes under `List.set`. -/
theorem countP_set {α : Type} (p : α → Bool) (d : α) :
    ∀ (l : List α) (i : Nat) (a : α), i < l.length →
      (l.set i a).countP p + (if p (l.getD i d) then 1 else 0)
        = l.countP p + (if p a then 1 else 0)
  | [], i, a, h => by simp at h
  | x :: xs, 0, a, _ => by
    simp [List.countP_cons]
    omega
  | x :: xs, i + 1, a, h => by
    have ih := countP_set p d xs i a (by simpa using h)
    simp only [List.set, List.countP_cons, List.getD_cons_succ]
    omega

/-- A slot that satisfies the predicate forces a positive count. -/
theorem countP_pos_of_getD {α : Type} (p : α → Bool) (d : α) (l : List α) (i : Nat)
    (h : i < l.length) (hp : p (l.getD i d) = true) : 1 ≤ l.countP p := by
  have hmem : l.getD i d ∈ l := by
    rw [List.getD_eq_getElem _ _ h]
    exact List.getElem_mem h
  have := List.countP_pos_iff.mpr ⟨l.getD i d, hmem, hp⟩
  omega

/-! ### Scan-loop characterizations -/

/-- The free-slot scan returns the first terminated slot. -/
theorem findSlotAux_eq (s : OS) (k : Nat) (hk : k < 16)
    (hterm : (s.processes.getD k pInit).state = .terminated) :
    ∀ (fuel i : Nat), i ≤ k → 16 ≤ i + fuel →
      (∀ m, i ≤ m → m < k → (s.processes.getD m pInit).state ≠ .terminated) →
      findSlotAux s i fuel = k := by
  intro fuel
  induction fuel with
  | zero => intro i hik hfl _; omega
  | succ fuel ih =>
    intro i hik hfl hmid
    have hi16 : i < 16 := Nat.lt_of_le_of_lt hik hk
    simp only [findSlotAux, if_pos hi16]
    by_cases hie : i = k
    · subst hie
      rw [if_neg (not_not_intro hterm)]
    · have hlt : i < k := Nat.lt_of_le_of_ne hik hie
      rw [if_pos (hmid i le_rfl hlt)]
      exact ih (i + 1) hlt (by omega) (fun m hm1 hm2 => hmid m (by omega) hm2)

/-- The free-slot scan never passes a terminated slot. -/
theorem findSlotAux_le (s : OS) (q : Nat)
    (hterm : (s.processes.getD q pInit).state = .terminated) :
    ∀ (fuel i : Nat), i ≤ q → findSlotAux s i fuel ≤ q := by
  intro fuel
  induction fuel with
  | zero => intro i hiq; exact hiq
  | succ fuel ih =>
    intro i hiq
    simp only [findSlotAux]
    by_cases hi : i < 16
    · rw [if_pos hi]
      by_cases hnt : (s.processes.getD i pInit).state ≠ .terminated
      · rw [if_pos hnt]
        have : i ≠ q := fun h => hnt (h ▸ hterm)
        exact ih (i + 1) (by omega)
      · rw [if_neg hnt]; exact hiq
    · rw [if_neg hi]; exact hiq

/-- A slot index returned by the scan below 16 is terminated. -/
theorem findSlotAux_term (s : OS) :
    ∀ (fuel i : Nat), 16 ≤ i + fuel → findSlotAux s i fuel < 16 →
      (s.processes.getD (findSlotAux s i fuel) pInit).state = .terminated := by
  intro fuel
  induction fuel with
  | zero => intro i h16 hlt; simp only [findSlotAux] at hlt; omega
  | succ fuel ih =>
    intro i h16 hlt
    simp only [findSlotAux] at hlt ⊢
    by_cases hi : i < 16
    · rw [if_pos hi] at hlt ⊢
      by_cases hnt : (s.processes.getD i pInit).state ≠ .terminated
      · rw [if_pos hnt] at hlt ⊢
        exact ih (i + 1) (by omega) hlt
      · rw [if_neg hnt] at hlt ⊢
        exact not_not.mp hnt
    · rw [if_neg hi] at hlt; omega

/-- The allocator scan returns the first free block (marked used). -/
theorem memAllocAux_eq (s : OS) (k : Nat) (hk : k < 16)
    (hfree : s.memory_map.getD k false = false) :
    ∀ (fuel i : Nat), i ≤ k → 16 ≤ i + fuel →
      (∀ m, i ≤ m → m < k → s.memory_map.getD m false = true) →
      memAllocAux s i fuel = (k * 4096, { s with memory_map := s.memory_map.set k true }) := by
  intro fuel
  induction fuel with
  | zero => intro i hik hfl _; omega
  | succ fuel ih =>
    intro i hik hfl hmid
    have hi16 : i < 16 := Nat.lt_of_le_of_lt hik hk
    simp only [memAllocAux, if_pos hi16]
    by_cases hie : i = k
    · subst hie; rw [if_pos hfree]
    · have hlt : i < k := Nat.lt_of_le_of_ne hik hie
      rw [if_neg (by rw [hmid i le_rfl hlt]; simp)]
      exact ih (i + 1) hlt (by omega) (fun m hm1 hm2 => hmid m (by omega) hm2)

/-- The allocator fails, leaving the state unchanged, when every block from
the scan position on is used. -/
theorem memAllocAux_full (s : OS) :
    ∀ (fuel i : Nat), (∀ m, i ≤ m → m < 16 → s.memory_map.getD m false = true) →
      memAllocAux s i fuel = (65535, s) := by
  intro fuel
  induction fuel with
  | zero => intro i _; rfl
  | succ fuel ih =>
    intro i hall
    simp only [memAllocAux]
    by_cases hi : i < 16
    · rw [if_pos hi, if_neg (by rw [hall i le_rfl hi]; simp)]
      exact ih (i + 1) (fun m hm1 hm2 => hall m (by omega) hm2)
    · rw [if_neg hi]

/-- When the allocator reports failure it has not changed the state. -/
theorem memAllocAux_fail (s : OS) :
    ∀ (fuel i : Nat), (memAllocAux s i fuel).1 = 65535 → (memAllocAux s i fuel).2 = s := by
  intro fuel
  induction fuel with
  | zero => intro i _; rfl
  | succ fuel ih =>
    intro i h1
    simp only [memAllocAux] at h1 ⊢
    by_cases hi : i < 16
    · rw [if_pos hi] at h1 ⊢
      by_cases hfree : s.memory_map.getD i false = false
      · rw [if_pos hfree] at h1
        simp at h1
        omega
      · rw [if_neg hfree] at h1 ⊢
        exact ih (i + 1) h1
    · rw [if_neg hi]

/-- The free-file scan returns the first not-in-use entry index. -/
theorem findFreeFileAux_eq (s : OS) (k : Nat) (hk : k < 32)
    (hfree : (s.file_table.getD k fInit).in_use = false) :
    ∀ (fuel i : Nat), i ≤ k → 32 ≤ i + fuel →
      (∀ m, i ≤ m → m < k → (s.file_table.getD m fInit).in_use = true) →
      findFreeFileAux s i fuel = (k : Int) := by
  intro fuel
  induction fuel with
  | zero => intro i hik hfl _; omega
  | succ fuel ih =>
    intro i hik hfl hmid
    have hi32 : i < 32 := Nat.lt_of_le_of_lt hik hk
    simp only [findFreeFileAux, if_pos hi32]
    by_cases hie : i = k
    · subst hie; rw [if_pos hfree]
    · have hlt : i < k := Nat.lt_of_le_of_ne hik hie
      rw [if_neg (by rw [hmid i le_rfl hlt]; simp)]
      exact ih (i + 1) hlt (by omega) (fun m hm1 hm2 => hmid m (by omega) hm2)

/-- The free-file scan reports a full table when every entry is in use. -/
theorem findFreeFileAux_full (s : OS) :
    ∀ (fuel i : Nat), (∀ m, i ≤ m → m < 32 → (s.file_table.getD m fInit).in_use = true) →
      findFreeFileAux s i fuel = -1 := by
  intro fuel
  induction fuel with
  | zero => intro i _; rfl
  | succ fuel ih =>
    intro i hall
    simp only [findFreeFileAux]
    by_cases hi : i < 32
    · rw [if_pos hi, if_neg (by rw [hall i le_rfl hi]; simp)]
      exact ih (i + 1) (fun m hm1 hm2 => hall m (by omega) hm2)
    · rw [if_neg hi]

/-- The free-file scan either fails or returns a free entry index. -/
theorem findFreeFileAux_spec (s : OS) :
    ∀ (fuel i : Nat),
      findFreeFileAux s i fuel = -1 ∨
      ∃ k, i ≤ k ∧ k < 32 ∧ (s.file_table.getD k fInit).in_use = false ∧
        findFreeFileAux s i fuel = (k : Int) := by
  intro fuel
  induction fuel with
  | zero => intro i; left; rfl
  | succ fuel ih =>
    intro i
    simp only [findFreeFileAux]
    by_cases hi : i < 32
    · rw [if_pos hi]
      by_cases hfree : (s.file_table.getD i fInit).in_use = false
      · rw [if_pos hfree]
        exact Or.inr ⟨i, le_rfl, hi, hfree, rfl⟩
      · rw [if_neg hfree]
        rcases ih (i + 1) with h | ⟨k, hk1, hk2, hk3, hk4⟩
        · exact Or.inl h
        · exact Or.inr ⟨k, by omega, hk2, hk3, hk4⟩
    · rw [if_neg hi]; left; rfl

/-- The duplicate scan reports a match exactly when some in-use entry from
the scan position on matches the probed name. -/
theorem dupAux_iff (nm : List Nat) (s : OS) :
    ∀ (fuel i : Nat), 32 ≤ i + fuel →
      (dupAux nm s i fuel = true ↔
        ∃ j, i ≤ j ∧ j < 32 ∧ (s.file_table.getD j fInit).in_use = true ∧
          nameMatch (s.file_table.getD j fInit).filename nm = true) := by
  intro fuel
  induction fuel with
  | zero =>
    intro i hfl
    simp only [dupAux]
    constructor
    · intro h; exact absurd h (by simp)
    · rintro ⟨j, hj1, hj2, -, -⟩; omega
  | succ fuel ih =>
    intro i hfl
    simp only [dupAux]
    by_cases hi : i < 32
    · rw [if_pos hi]
      by_cases hcond : (s.file_table.getD i fInit).in_use = true ∧
          nameMatch (s.file_table.getD i fInit).filename nm = true
      · rw [if_pos (by simpa using hcond)]
        simp only [true_iff]
        exact ⟨i, le_rfl, hi, hcond.1, hcond.2⟩
      · rw [if_neg (by simpa using hcond)]
        rw [ih (i + 1) (by omega)]
        constructor
        · rintro ⟨j, hj1, hj2, hj3, hj4⟩
          exact ⟨j, by omega, hj2, hj3, hj4⟩
        · rintro ⟨j, hj1, hj2, hj3, hj4⟩
          refine ⟨j, ?_, hj2, hj3, hj4⟩
          rcases Nat.eq_or_lt_of_le hj1 with h | h
          · exact absurd ⟨h ▸ hj3, h ▸ hj4⟩ hcond
          · omega
    · rw [if_neg hi]
      constructor
      · intro h; exact absurd h (by simp)
      · rintro ⟨j, hj1, hj2, -, -⟩; omega

/-- The delete scan either finds nothing (state unchanged) or clears the
`in_use` flag of one matching in-use entry. -/
theorem fsDeleteAux_cases (nm : List Nat) (s : OS) :
    ∀ (fuel i : Nat),
      fsDeleteAux nm s i fuel = (false, s) ∨
      ∃ k, k < 32 ∧ (s.file_table.getD k fInit).in_use = true ∧
        fsDeleteAux nm s i fuel =
          (true, { s with file_table := s.file_table.set k (clearUse
            (s.file_table.getD k fInit)) }) := by
  intro fuel
  induction fuel with
  | zero => intro i; left; rfl
  | succ fuel ih =>
    intro i
    simp only [fsDeleteAux]
    by_cases hi : i < 32
    · rw [if_pos hi]
      by_cases hcond : (s.file_table.getD i fInit).in_use = true ∧
          nameMatch (s.file_table.getD i fInit).filename nm = true
      · rw [if_pos (by simpa using hcond)]
        exact Or.inr ⟨i, hi, hcond.1, rfl⟩
      · rw [if_neg (by simpa using hcond)]
        exact ih (i + 1)
    · rw [if_neg hi]; left; rfl

/-- The scheduler scan either does nothing or promotes some ready slot other
than the current one. -/
theorem schedAux_cases (s : OS) :
    ∀ (fuel next : Nat), next < 16 →
      schedAux s next fuel = s ∨
      ∃ nx, nx < 16 ∧ nx ≠ s.current_process ∧
        (s.processes.getD nx pInit).state = .ready ∧
        schedAux s next fuel = promote s nx := by
  intro fuel
  induction fuel with
  | zero => intro next _; left; rfl
  | succ fuel ih =>
    intro next hn
    simp only [schedAux]
    by_cases hc : next = s.current_process
    · rw [if_pos hc]; left; rfl
    · rw [if_neg hc]
      by_cases hr : (s.processes.getD next pInit).state = .ready
      · rw [if_pos hr]
        exact Or.inr ⟨next, hn, hc, hr, rfl⟩
      · rw [if_neg hr]
        exact ih ((next + 1) % 16) (Nat.mod_lt _ (by omega))

/-- The scheduler scan is a no-op when no slot other than the current one is
ready (the loop never examines the current slot itself). -/
theorem schedAux_no_ready (s : OS)
    (h : ∀ i, i < 16 → i ≠ s.current_process → (s.processes.getD i pInit).state ≠ .ready) :
    ∀ (fuel next : Nat), next < 16 → schedAux s next fuel = s := by
  intro fuel
  induction fuel with
  | zero => intro next _; rfl
  | succ fuel ih =>
    intro next hn
    simp only [schedAux]
    by_cases hc : next = s.current_process
    · rw [if_pos hc]
    · rw [if_neg hc, if_neg (h next hn hc)]
      exact ih ((next + 1) % 16) (Nat.mod_lt _ (by omega))

/-- When slot `p` is the unique ready slot and differs from the current slot,
the scan starting anywhere strictly between the current slot and `p` (in
cyclic order) promotes `p`.  The second and third hypotheses track the cyclic
distances to `p` and to the current slot. -/
theorem schedAux_promotes (s : OS) (p : Nat) (hp16 : p < 16)
    (hready : (s.processes.getD p pInit).state = .ready)
    (honly : ∀ i, i < 16 → i ≠ p → (s.processes.getD i pInit).state ≠ .ready) :
    ∀ (fuel next : Nat), next < 16 →
      (p + 16 - next) % 16 < (s.current_process + 16 - next) % 16 →
      (s.current_process + 16 - next) % 16 ≤ fuel →
      schedAux s next fuel = promote s p := by
  intro fuel
  induction fuel with
  | zero => intro next hn he hd; omega
  | succ fuel ih =>
    intro next hn he hd
    have hnc : next ≠ s.current_process := by
      intro hcontra
      rw [hcontra] at he
      omega
    simp only [schedAux, if_neg hnc]
    by_cases hnp : next = p
    · subst hnp
      rw [if_pos hready]
    · rw [if_neg (honly next hn hnp)]
      have hne0 : (p + 16 - next) % 16 ≠ 0 := by omega
      exact ih ((next + 1) % 16) (Nat.mod_lt _ (by omega)) (by omega) (by omega)

/-- The allocator either fails with the state unchanged or marks the first
free block used. -/
theorem memAllocAux_spec (s : OS) :
    ∀ (fuel i : Nat),
      memAllocAux s i fuel = (65535, s) ∨
      ∃ k, i ≤ k ∧ k < 16 ∧ s.memory_map.getD k false = false ∧
        memAllocAux s i fuel = (k * 4096, { s with memory_map := s.memory_map.set k true }) := by
  intro fuel
  induction fuel with
  | zero => intro i; left; rfl
  | succ fuel ih =>
    intro i
    simp only [memAllocAux]
    by_cases hi : i < 16
    · rw [if_pos hi]
      by_cases hfree : s.memory_map.getD i false = false
      · rw [if_pos hfree]
        exact Or.inr ⟨i, le_rfl, hi, hfree, rfl⟩
      · rw [if_neg hfree]
        rcases ih (i + 1) with h | ⟨k, hk1, hk2, hk3, hk4⟩
        · exact Or.inl h
        · exact Or.inr ⟨k, by omega, hk2, hk3, hk4⟩
    · rw [if_neg hi]; left; rfl

/-- `memory_free` touches only the memory bitmap, preserving its length. -/
theorem memory_free_frame (a : Nat) (s : OS) :
    (memory_free a s).processes = s.processes ∧
    (memory_free a s).current_process = s.current_process ∧
    (memory_free a s).process_count = s.process_count ∧
    (memory_free a s).file_table = s.file_table ∧
    (memory_free a s).memory_map.length = s.memory_map.length := by
  unfold memory_free
  split <;> simp

/-- The initial state satisfies the invariant. -/
theorem SysInv_init : SysInv os_init :=
  ⟨by decide, by decide, by decide, by decide, by decide, by decide⟩


/-- Exhaustive description of `process_create`: every failure leaves the
state unchanged; success fills a terminated slot with a ready process owning
a previously free block, and bumps the count. -/
theorem process_create_cases (nm : List Nat) (s : OS) :
    ((∃ e, (process_create nm s).1 = Except.error e) ∧ (process_create nm s).2 = s) ∨
    ∃ pid, pid < 16 ∧ (s.processes.getD pid pInit).state = .terminated ∧
      ∃ k, k < 16 ∧ s.memory_map.getD k false = false ∧
        process_create nm s = (Except.ok pid,
          { s with
            memory_map := s.memory_map.set k true,
            processes := s.processes.set pid (mkReady pid (k * 4096) nm),
            process_count := (s.process_count + 1) % 256 }) := by
  simp only [process_create]
  by_cases h1 : 16 ≤ s.process_count
  · rw [if_pos h1]
    exact Or.inl ⟨⟨.tableFull, rfl⟩, rfl⟩
  · rw [if_neg h1]
    by_cases h2 : 16 ≤ findSlotAux s 0 16
    · rw [if_pos h2]
      exact Or.inl ⟨⟨.tableFull, rfl⟩, rfl⟩
    · rw [if_neg h2]
      have hterm : (s.processes.getD (findSlotAux s 0 16) pInit).state = .terminated :=
        findSlotAux_term s 16 0 (by omega) (by omega)
      rcases memAllocAux_spec s 16 0 with halloc | ⟨k, -, hk16, hkfree, halloc⟩
      · rw [show memory_allocate s = (65535, s) from halloc]
        exact Or.inl ⟨⟨.outOfMemory, rfl⟩, rfl⟩
      · rw [show memory_allocate s =
            (k * 4096, { s with memory_map := s.memory_map.set k true }) from halloc]
        have hne : ¬ ((k * 4096, { s with memory_map := s.memory_map.set k true }).1 = 65535) := by
          simp
          omega
        rw [if_neg hne]
        exact Or.inr ⟨findSlotAux s 0 16, by omega, hterm, k, hk16, hkfree, rfl⟩

/-- Exhaustive description of `process_terminate`: a no-op on an out-of-range
or terminated pid, otherwise block free + slot termination + count decrement. -/
theorem process_terminate_cases (pid : Nat) (s : OS) :
    ((16 ≤ pid ∨ (s.processes.getD pid pInit).state = .terminated) ∧
      process_terminate pid s = s) ∨
    (pid < 16 ∧ (s.processes.getD pid pInit).state ≠ .terminated ∧
      process_terminate pid s =
        { s with
          memory_map :=
            if (s.processes.getD pid pInit).memory_start / 4096 < 16 then
              s.memory_map.set ((s.processes.getD pid pInit).memory_start / 4096) false
            else s.memory_map,
          processes := s.processes.set pid (setState
            (s.processes.getD pid pInit) ProcessState.terminated),
          process_count := (s.process_count + 255) % 256 }) := by
  simp only [process_terminate]
  by_cases hg : 16 ≤ pid ∨ (s.processes.getD pid pInit).state = .terminated
  · rw [if_pos hg]
    exact Or.inl ⟨hg, rfl⟩
  · rw [if_neg hg]
    push_neg at hg
    refine Or.inr ⟨by omega, hg.2, ?_⟩
    simp only [memory_free]
    split <;> rfl


/-- `liveP` reads only the `state` field. -/
theorem liveP_eq (p : Process) : liveP p = decide (p.state ≠ ProcessState.terminated) := rfl

/-- A freshly created process is live. -/
theorem liveP_mkReady (pid ms : Nat) (nm : List Nat) : liveP (mkReady pid ms nm) = true := rfl

/-- Demoting to ready keeps a slot live. -/
theorem liveP_setReady (p : Process) : liveP (setState p ProcessState.ready) = true := rfl

/-- Promoting to running keeps a slot live. -/
theorem liveP_setRunning (p : Process) : liveP (setState p ProcessState.running) = true := rfl

/-- Terminating makes a slot non-live. -/
theorem liveP_setTerm (p : Process) : liveP (setState p ProcessState.terminated) = false := rfl

/-- `process_create` preserves the system invariant. -/
theorem SysInv_create (nm : List Nat) (s : OS) (h : SysInv s) :
    SysInv (process_create nm s).2 := by
  obtain ⟨hm, hp, hf, hc, hcnt, hrun⟩ := h
  rcases process_create_cases nm s with ⟨-, heq⟩ | ⟨pid, hpid, hterm, k, hk, -, heq⟩
  · rw [heq]; exact ⟨hm, hp, hf, hc, hcnt, hrun⟩
  · rw [heq]
    have hlen : pid < s.processes.length := by omega
    refine ⟨by simpa using hm, by simpa using hp, hf, hc, ?_, ?_⟩
    · show (s.process_count + 1) % 256
        = List.countP liveP (s.processes.set pid (mkReady pid (k * 4096) nm))
      have hcp := countP_set liveP pInit s.processes pid (mkReady pid (k * 4096) nm) hlen
      have hold : liveP (s.processes.getD pid pInit) = false := by
        rw [liveP_eq, hterm]; decide
      rw [hold, liveP_mkReady, if_neg (by decide), if_pos (by decide)] at hcp
      have hle : s.processes.countP liveP ≤ 16 := by
        have := List.countP_le_length liveP (l := s.processes)
        omega
      omega
    · show ∀ i, i < 16 →
        ((s.processes.set pid (mkReady pid (k * 4096) nm)).getD i pInit).state
          = .running → i = s.current_process
      intro i hi hrs
      by_cases hip : i = pid
      · subst hip
        rw [getD_set_eq _ _ _ _ hlen] at hrs
        exact absurd hrs (by simp [mkReady])
      · rw [getD_set_ne _ _ _ _ _ (fun hx => hip hx.symm)] at hrs
        exact hrun i hi hrs

/-- `process_terminate` preserves the system invariant. -/
theorem SysInv_term (pid : Nat) (s : OS) (h : SysInv s) :
    SysInv (process_terminate pid s) := by
  obtain ⟨hm, hp, hf, hc, hcnt, hrun⟩ := h
  rcases process_terminate_cases pid s with ⟨-, heq⟩ | ⟨hpid, hterm, heq⟩
  · rw [heq]; exact ⟨hm, hp, hf, hc, hcnt, hrun⟩
  · rw [heq]
    have hlen : pid < s.processes.length := by omega
    refine ⟨by split <;> simp [hm], by simpa using hp, hf, hc, ?_, ?_⟩
    · show (s.process_count + 255) % 256 = List.countP liveP
        (s.processes.set pid (setState (s.processes.getD pid pInit) ProcessState.terminated))
      have hcp := countP_set liveP pInit s.processes pid
        (setState (s.processes.getD pid pInit) ProcessState.terminated) hlen
      have hold : liveP (s.processes.getD pid pInit) = true := by
        rw [liveP_eq]; exact decide_eq_true hterm
      rw [hold, liveP_setTerm, if_pos (by decide), if_neg (by decide)] at hcp
      have hpos : 1 ≤ s.processes.countP liveP := countP_pos_of_getD liveP pInit _ _ hlen hold
      have hle : s.processes.countP liveP ≤ 16 := by
        have := List.countP_le_length liveP (l := s.processes)
        omega
      omega
    · show ∀ i, i < 16 →
        (((s.processes.set pid (setState (s.processes.getD pid pInit)
          ProcessState.terminated))).getD i pInit).state = .running → i = s.current_process
      intro i hi hrs
      by_cases hip : i = pid
      · subst hip
        rw [getD_set_eq _ _ _ _ hlen] at hrs
        exact absurd hrs (by simp [setState])
      · rw [getD_set_ne _ _ _ _ _ (fun hx => hip hx.symm)] at hrs
        exact hrun i hi hrs

/-- `promote` preserves the system invariant when its target is a ready slot
other than the current one. -/
theorem SysInv_promote (s : OS) (nx : Nat) (hnx : nx < 16)
    (hnxc : nx ≠ s.current_process)
    (hnxr : (s.processes.getD nx pInit).state = .ready) (h : SysInv s) :
    SysInv (promote s nx) := by
  obtain ⟨hm, hp, hf, hc, hcnt, hrun⟩ := h
  have hclen : s.current_process < s.processes.length := by omega
  have hnlen : nx < s.processes.length := by omega
  have e3 : liveP (s.processes.getD nx pInit) = true := by
    rw [liveP_eq]; exact decide_eq_true (by rw [hnxr]; decide)
  simp only [promote]
  by_cases hd : (s.processes.getD s.current_process pInit).state = .running
  · rw [if_pos hd]
    have hAnx : (s.processes.set s.current_process (setState
        (s.processes.getD s.current_process pInit) ProcessState.ready)).getD nx pInit
        = s.processes.getD nx pInit := getD_set_ne _ _ _ _ _ (fun hx => hnxc hx.symm)
    show SysInv { s with
      current_process := nx,
      processes := (s.processes.set s.current_process (setState
        (s.processes.getD s.current_process pInit) ProcessState.ready)).set nx (setState
          ((s.processes.set s.current_process (setState
            (s.processes.getD s.current_process pInit) ProcessState.ready)).getD nx pInit)
          ProcessState.running) }
    rw [hAnx]
    refine ⟨hm, by simpa using hp, hf, hnx, ?_, ?_⟩
    · show s.process_count = List.countP liveP
        ((s.processes.set s.current_process (setState
          (s.processes.getD s.current_process pInit) ProcessState.ready)).set nx
          (setState (s.processes.getD nx pInit) ProcessState.running))
      have hcp1 := countP_set liveP pInit s.processes s.current_process
        (setState (s.processes.getD s.current_process pInit) ProcessState.ready) hclen
      have hcp2 := countP_set liveP pInit
        (s.processes.set s.current_process (setState
          (s.processes.getD s.current_process pInit) ProcessState.ready)) nx
        (setState (s.processes.getD nx pInit) ProcessState.running) (by simpa using hnlen)
      rw [hAnx] at hcp2
      have e1 : liveP (s.processes.getD s.current_process pInit) = true := by
        rw [liveP_eq]; exact decide_eq_true (by rw [hd]; decide)
      rw [e1, liveP_setReady] at hcp1
      rw [e3, liveP_setRunning] at hcp2
      rw [if_pos (show (true : Bool) = true from rfl)] at hcp1 hcp2
      omega
    · show ∀ i, i < 16 →
        (((s.processes.set s.current_process (setState
          (s.processes.getD s.current_process pInit) ProcessState.ready)).set nx
          (setState (s.processes.getD nx pInit) ProcessState.running)).getD i pInit).state
          = .running → i = nx
      intro i hi hrs
      by_cases hinx : i = nx
      · exact hinx
      · rw [getD_set_ne _ _ _ _ _ (fun hx => hinx hx.symm)] at hrs
        by_cases hic : i = s.current_process
        · subst hic
          rw [getD_set_eq _ _ _ _ hclen] at hrs
          exact absurd hrs (by simp [setState])
        · rw [getD_set_ne _ _ _ _ _ (fun hx => hic hx.symm)] at hrs
          exact absurd (hrun i hi hrs) hic
  · rw [if_neg hd]
    show SysInv { s with
      current_process := nx,
      processes := s.processes.set nx (setState (s.processes.getD nx pInit)
        ProcessState.running) }
    refine ⟨hm, by simpa using hp, hf, hnx, ?_, ?_⟩
    · show s.process_count = List.countP liveP
        (s.processes.set nx (setState (s.processes.getD nx pInit) ProcessState.running))
      have hcp := countP_set liveP pInit s.processes nx
        (setState (s.processes.getD nx pInit) ProcessState.running) hnlen
      rw [e3, liveP_setRunning] at hcp
      rw [if_pos (show (true : Bool) = true from rfl)] at hcp
      omega
    · show ∀ i, i < 16 →
        ((s.processes.set nx (setState (s.processes.getD nx pInit)
          ProcessState.running)).getD i pInit).state = .running → i = nx
      intro i hi hrs
      by_cases hinx : i = nx
      · exact hinx
      · rw [getD_set_ne _ _ _ _ _ (fun hx => hinx hx.symm)] at hrs
        have hic := hrun i hi hrs
        rw [hic] at hrs
        exact absurd hrs hd

/-- `process_schedule` preserves the system invariant. -/
theorem SysInv_sched (s : OS) (h : SysInv s) : SysInv (process_schedule s) := by
  simp only [process_schedule]
  by_cases h0 : s.process_count = 0
  · rw [if_pos h0]; exact h
  · rw [if_neg h0]
    rcases schedAux_cases s 16 ((s.current_process + 1) % 16) (Nat.mod_lt _ (by omega))
      with heq | ⟨nx, hnx, hnxc, hnxr, heq⟩
    · rw [heq]; exact h
    · rw [heq]; exact SysInv_promote s nx hnx hnxc hnxr h

/-- `memory_allocate` preserves the system invariant. -/
theorem SysInv_alloc (s : OS) (h : SysInv s) : SysInv (memory_allocate s).2 := by
  obtain ⟨hm, hp, hf, hc, hcnt, hrun⟩ := h
  rcases memAllocAux_spec s 16 0 with heq | ⟨k, -, hk, -, heq⟩
  · rw [show memory_allocate s = (65535, s) from heq]
    exact ⟨hm, hp, hf, hc, hcnt, hrun⟩
  · rw [show memory_allocate s
        = (k * 4096, { s with memory_map := s.memory_map.set k true }) from heq]
    exact ⟨by simpa using hm, hp, hf, hc, hcnt, hrun⟩

/-- `memory_free` preserves the system invariant. -/
theorem SysInv_free (a : Nat) (s : OS) (h : SysInv s) : SysInv (memory_free a s) := by
  obtain ⟨hm, hp, hf, hc, hcnt, hrun⟩ := h
  simp only [memory_free]
  split
  · exact ⟨by simpa using hm, hp, hf, hc, hcnt, hrun⟩
  · exact ⟨hm, hp, hf, hc, hcnt, hrun⟩

/-- Every process-operation-reachable state satisfies the invariant. -/
theorem PReach_inv (s : OS) (h : PReach s) : SysInv s := by
  induction h with
  | init => exact SysInv_init
  | create t nm _ ih => exact SysInv_create nm t ih
  | term t pid _ ih => exact SysInv_term pid t ih
  | sched t _ ih => exact SysInv_sched t ih

/-- Every reachable state (process and allocator operations) satisfies the
invariant. -/
theorem SysReach_inv (s : OS) (h : SysReach s) : SysInv s := by
  induction h with
  | init => exact SysInv_init
  | create t nm _ ih => exact SysInv_create nm t ih
  | term t pid _ ih => exact SysInv_term pid t ih
  | sched t _ ih => exact SysInv_sched t ih
  | alloc t _ ih => exact SysInv_alloc t ih
  | free t a _ ih => exact SysInv_free a t ih

/-! ### Claim theorems -/

/-- C6: `memory_allocate` returns the byte offset (index times 4096) of the
lowest-index free block and marks exactly that block used whenever a free
block exists; when every block is used it returns the `0xFFFF` failure value
and leaves the state (in particular the bitmap) unchanged. -/
theorem C6_allocate_first_free (s : OS) :
    (∀ k, k < 16 → s.memory_map.getD k false = false →
      (∀ m, m < k → s.memory_map.getD m false = true) →
      memory_allocate s = (k * 4096, { s with memory_map := s.memory_map.set k true })) ∧
    ((∀ m, m < 16 → s.memory_map.getD m false = true) →
      memory_allocate s = (65535, s)) := by
  constructor
  · intro k hk hfree hmid
    exact memAllocAux_eq s k hk hfree 16 0 (by omega) (by omega) (fun m _ hm2 => hmid m hm2)
  · intro hall
    exact memAllocAux_full s 16 0 (fun m _ hm2 => hall m hm2)

/-- C6 witness: concrete instances of both branches — the first allocation
from the initialized system takes block 0, and allocation from the
fully-allocated system fails without changing it. -/
theorem C6_allocate_first_free_witness :
    memory_allocate os_init
      = (0 * 4096, { os_init with memory_map := os_init.memory_map.set 0 true }) ∧
    memory_allocate (allocIter 16) = (65535, allocIter 16) :=
  ⟨(C6_allocate_first_free os_init).1 0 (by decide) (by decide)
      (fun m hm => absurd hm (Nat.not_lt_zero m)),
    (C6_allocate_first_free (allocIter 16)).2 (by decide)⟩

/-- C3 counterexample: after two allocations block 1 is in range and used;
offset 5000 is not a multiple of the block size, yet `memory_free 5000` is
not a no-op — it clears block 1. -/
theorem C3_counterexample :
    (allocIter 2).memory_map.getD 1 false = true ∧ 5000 % 4096 ≠ 0 ∧
    memory_free 5000 (allocIter 2) ≠ allocIter 2 := by decide

/-- C3 (amended): for a 16-bit offset the containing block index
`offset / 4096` is always in range, and `memory_free` clears that block's
flag regardless of whether the offset is block-aligned; it is a no-op
exactly when the containing block is already free. -/
theorem C3_free_containing_block (s : OS) (addr : Nat)
    (hlen : s.memory_map.length = 16) (haddr : addr < 65536) :
    (s.memory_map.getD (addr / 4096) false = false → memory_free addr s = s) ∧
    (s.memory_map.getD (addr / 4096) false = true →
      memory_free addr s ≠ s ∧
      (memory_free addr s).memory_map.getD (addr / 4096) false = false) := by
  have hblk : addr / 4096 < 16 := by omega
  have hblen : addr / 4096 < s.memory_map.length := by omega
  constructor
  · intro hfree
    simp only [memory_free, if_pos hblk]
    rw [show (false : Bool) = s.memory_map.getD (addr / 4096) false from hfree.symm,
      set_getD_self _ _ _ hblen]
  · intro hused
    constructor
    · intro hcontra
      simp only [memory_free, if_pos hblk] at hcontra
      have hmapeq : s.memory_map.set (addr / 4096) false = s.memory_map :=
        congrArg OS.memory_map hcontra
      have h2 := getD_set_eq s.memory_map (addr / 4096) false false hblen
      rw [hmapeq, hused] at h2
      exact Bool.noConfusion h2
    · simp only [memory_free, if_pos hblk]
      exact getD_set_eq _ _ _ _ hblen

/-- C3 witness: freeing offset 12288 (block 3, free) is a no-op; freeing
offset 5000 (inside used block 1) changes the state and clears block 1. -/
theorem C3_free_containing_block_witness :
    memory_free 12288 (allocIter 2) = allocIter 2 ∧
    (memory_free 5000 (allocIter 2) ≠ allocIter 2 ∧
      (memory_free 5000 (allocIter 2)).memory_map.getD (5000 / 4096) false = false) :=
  ⟨(C3_free_containing_block (allocIter 2) 12288 (by decide) (by decide)).1 (by decide),
    (C3_free_containing_block (allocIter 2) 5000 (by decide) (by decide)).2 (by decide)⟩

/-- C8: in every state reachable by process create/terminate/schedule, at
most one process slot is `RUNNING`. -/
theorem C8_at_most_one_running (s : OS) (h : PReach s) :
    ∀ i j, i < 16 → j < 16 →
      (s.processes.getD i pInit).state = .running →
      (s.processes.getD j pInit).state = .running → i = j := by
  obtain ⟨-, -, -, -, -, hrun⟩ := PReach_inv s h
  intro i j hi hj hri hrj
  rw [hrun i hi hri, hrun j hj hrj]

/-- C8 witness: a concrete reachable state with a running process (slot 1
after two creates and a schedule), where the theorem applies. -/
theorem C8_at_most_one_running_witness :
    ((process_schedule (process_create [98] (process_create [97] os_init).2).2).processes.getD
      1 pInit).state = .running ∧ (1 : Nat) = 1 :=
  ⟨by decide,
    C8_at_most_one_running _
      (PReach.sched _ (PReach.create _ [98] (PReach.create _ [97] PReach.init)))
      1 1 (by decide) (by decide) (by decide) (by decide)⟩

/-- C10: in every state reachable by process operations, the stored live
count equals the number of non-terminated slots, hence is at most 16. -/
theorem C10_count_is_live_slots (s : OS) (h : PReach s) :
    s.process_count = s.processes.countP liveP ∧ s.process_count ≤ 16 := by
  obtain ⟨-, hp, -, -, hcnt, -⟩ := PReach_inv s h
  refine ⟨hcnt, ?_⟩
  have := List.countP_le_length liveP (l := s.processes)
  omega

/-- C10 witness: the invariant instantiated at a concrete reachable state
(one live process). -/
theorem C10_count_is_live_slots_witness :
    (process_create [97] os_init).2.process_count
      = (process_create [97] os_init).2.processes.countP liveP ∧
    (process_create [97] os_init).2.process_count ≤ 16 :=
  C10_count_is_live_slots _ (PReach.create _ [97] PReach.init)

/-- C5: in every reachable state, `process_terminate` is a silent no-op on an
out-of-range or already-terminated pid; on a live pid it marks the slot
`TERMINATED`, clears the bitmap flag of the slot's memory block, and
decrements the live count by one; and it is idempotent. -/
theorem C5_terminate_spec (s : OS) (h : PReach s) (pid : Nat) :
    ((16 ≤ pid ∨ (s.processes.getD pid pInit).state = .terminated) →
      process_terminate pid s = s) ∧
    (pid < 16 → (s.processes.getD pid pInit).state ≠ .terminated →
      ((process_terminate pid s).processes.getD pid pInit).state = .terminated ∧
      (process_terminate pid s).memory_map.getD
        ((s.processes.getD pid pInit).memory_start / 4096) false = false ∧
      (process_terminate pid s).process_count = s.process_count - 1) ∧
    process_terminate pid (process_terminate pid s) = process_terminate pid s := by
  obtain ⟨hm, hp, hf, hc, hcnt, hrun⟩ := PReach_inv s h
  refine ⟨?_, ?_, ?_⟩
  · intro hg
    rcases process_terminate_cases pid s with ⟨-, heq⟩ | ⟨hpid, hterm, -⟩
    · exact heq
    · rcases hg with hg | hg
      · omega
      · exact absurd hg hterm
  · intro hpid hterm
    rcases process_terminate_cases pid s with ⟨hg, -⟩ | ⟨-, -, heq⟩
    · rcases hg with hg | hg
      · omega
      · exact absurd hg hterm
    · have hlen : pid < s.processes.length := by omega
      rw [heq]
      refine ⟨?_, ?_, ?_⟩
      · show ((s.processes.set pid (setState (s.processes.getD pid pInit)
          ProcessState.terminated)).getD pid pInit).state = .terminated
        rw [getD_set_eq _ _ _ _ hlen]
        rfl
      · show (if (s.processes.getD pid pInit).memory_start / 4096 < 16 then
            s.memory_map.set ((s.processes.getD pid pInit).memory_start / 4096) false
          else s.memory_map).getD
            ((s.processes.getD pid pInit).memory_start / 4096) false = false
        by_cases hblk : (s.processes.getD pid pInit).memory_start / 4096 < 16
        · rw [if_pos hblk]
          exact getD_set_eq _ _ _ _ (by omega)
        · rw [if_neg hblk]
          rw [List.getD_eq_getElem?_getD, List.getElem?_eq_none (by omega)]
          rfl
      · show (s.process_count + 255) % 256 = s.process_count - 1
        have hold : liveP (s.processes.getD pid pInit) = true := by
          rw [liveP_eq]; exact decide_eq_true hterm
        have hpos : 1 ≤ s.processes.countP liveP :=
          countP_pos_of_getD liveP pInit _ _ hlen hold
        have hle : s.processes.countP liveP ≤ 16 := by
          have := List.countP_le_length liveP (l := s.processes)
          omega
        omega
  · rcases process_terminate_cases pid s with ⟨-, heq⟩ | ⟨hpid, -, heq⟩
    · rw [heq]
      exact heq
    · have hstate : ((process_terminate pid s).processes.getD pid pInit).state
          = .terminated := by
        rw [heq]
        show ((s.processes.set pid (setState (s.processes.getD pid pInit)
          ProcessState.terminated)).getD pid pInit).state = .terminated
        rw [getD_set_eq _ _ _ _ (by omega)]
        rfl
      set T := process_terminate pid s with hT
      simp only [process_terminate]
      rw [if_pos (Or.inr hstate)]

/-- C4: `process_create` is atomic on failure — every failing call leaves the
state unchanged — and, in a reachable state in which all memory blocks are
used but a free (terminated) process slot exists, it fails on the
out-of-memory return path with the state unchanged. -/
theorem C4_create_atomic (s : OS) (nm : List Nat) :
    (∀ e, (process_create nm s).1 = Except.error e → (process_create nm s).2 = s) ∧
    (SysReach s → (∀ i, i < 16 → s.memory_map.getD i false = true) →
      (∃ q, q < 16 ∧ (s.processes.getD q pInit).state = .terminated) →
      process_create nm s = (Except.error CreateErr.outOfMemory, s)) := by
  constructor
  · intro e herr
    rcases process_create_cases nm s with ⟨-, heq⟩ | ⟨pid, -, -, k, -, -, heq⟩
    · exact heq
    · rw [heq] at herr
      exact Except.noConfusion (show Except.ok pid = Except.error e from herr)
  · rintro hreach hfull ⟨q, hq, hqterm⟩
    obtain ⟨hm, hp, hf, hc, hcnt, hrun⟩ := SysReach_inv s hreach
    have hlive : liveP (s.processes.getD q pInit) = false := by
      rw [liveP_eq, hqterm]; decide
    have hlt : s.processes.countP liveP < 16 := by
      rcases Nat.lt_or_ge (s.processes.countP liveP) 16 with hx | hx
      · exact hx
      · exfalso
        have hle := List.countP_le_length liveP (l := s.processes)
        have heqlen : s.processes.countP liveP = s.processes.length := by omega
        have hall := List.countP_eq_length.mp heqlen
        have hmem : s.processes.getD q pInit ∈ s.processes := by
          rw [List.getD_eq_getElem _ _ (by omega)]
          exact List.getElem_mem (by omega)
        rw [hall _ hmem] at hlive
        exact Bool.noConfusion hlive
    simp only [process_create]
    rw [if_neg (by omega : ¬ 16 ≤ s.process_count)]
    have hple : findSlotAux s 0 16 ≤ q := findSlotAux_le s q hqterm 16 0 (by omega)
    rw [if_neg (by omega : ¬ 16 ≤ findSlotAux s 0 16)]
    rw [show memory_allocate s = (65535, s) from
      memAllocAux_full s 16 0 (fun m _ hm2 => hfull m hm2)]
    rw [if_pos (show ((65535 : Nat), s).1 = 65535 from rfl)]

/-- SysReach holds of every allocator-iterated state. -/
theorem SysReach_allocIter (n : Nat) : SysReach (allocIter n) := by
  induction n with
  | zero => exact SysReach.init
  | succ n ih => exact SysReach.alloc _ ih

/-- C4 witness: from the initialized system, 16 allocator calls exhaust
memory while every process slot stays free; `process_create` then fails on
the out-of-memory path with the state unchanged. -/
theorem C4_create_atomic_witness :
    ((allocIter 16).processes.getD 0 pInit).state = .terminated ∧
    process_create [97] (allocIter 16)
      = (Except.error CreateErr.outOfMemory, allocIter 16) ∧
    (process_create [97] (allocIter 16)).2 = allocIter 16 :=
  ⟨by decide,
    (C4_create_atomic (allocIter 16) [97]).2 (SysReach_allocIter 16) (by decide)
      ⟨0, by decide, by decide⟩,
    (C4_create_atomic (allocIter 16) [97]).1 CreateErr.outOfMemory (by decide)⟩

/-- C1 counterexample: on the fresh system, `process_create "shell"` returns
pid 0 in state `READY`, but `process_schedule` is a no-op (the round-robin
scan never examines the current slot, which is slot 0), so pid 0 is not
promoted to `RUNNING`. -/
theorem C1_counterexample :
    (process_create [115, 104, 101, 108, 108] os_init).1 = Except.ok 0 ∧
    ((process_create [115, 104, 101, 108, 108] os_init).2.processes.getD 0 pInit).state
      = .ready ∧
    process_schedule (process_create [115, 104, 101, 108, 108] os_init).2
      = (process_create [115, 104, 101, 108, 108] os_init).2 ∧
    ((process_schedule (process_create [115, 104, 101, 108, 108] os_init).2).processes.getD
      0 pInit).state ≠ .running := by decide

/-- C1 (amended): with exactly one live process, in state `READY` at slot
`p`, `process_schedule` promotes it to `RUNNING` (making it current) only
when `p` differs from the current slot, and a second schedule then leaves it
`RUNNING`; when `p` equals the current slot (as after the first create on a
fresh system) `process_schedule` is a no-op. -/
theorem C1_schedule_single_ready (s : OS) (p : Nat)
    (hlen : s.processes.length = 16) (hcur : s.current_process < 16) (hp : p < 16)
    (hcount : s.process_count = 1)
    (hready : (s.processes.getD p pInit).state = .ready)
    (hothers : ∀ i, i < 16 → i ≠ p → (s.processes.getD i pInit).state = .terminated) :
    (p ≠ s.current_process →
      process_schedule s = promote s p ∧
      ((process_schedule s).processes.getD p pInit).state = .running ∧
      (process_schedule s).current_process = p ∧
      process_schedule (process_schedule s) = process_schedule s) ∧
    (p = s.current_process → process_schedule s = s) := by
  have honly : ∀ i, i < 16 → i ≠ p → (s.processes.getD i pInit).state ≠ .ready := by
    intro i hi hip
    rw [hothers i hi hip]
    decide
  constructor
  · intro hpc
    have hcterm : (s.processes.getD s.current_process pInit).state = .terminated :=
      hothers _ hcur (fun hx => hpc hx.symm)
    have hnr : ¬ (s.processes.getD s.current_process pInit).state = .running := by
      rw [hcterm]; decide
    have hsched : process_schedule s = promote s p := by
      simp only [process_schedule]
      rw [if_neg (by omega : ¬ s.process_count = 0)]
      refine schedAux_promotes s p hp hready honly 16 ((s.current_process + 1) % 16)
        (Nat.mod_lt _ (by omega)) ?_ ?_ <;>
        rcases Nat.lt_or_ge s.current_process 15 with hx | hx
      · rw [Nat.mod_eq_of_lt (by omega : s.current_process + 1 < 16)]
        omega
      · rw [show s.current_process = 15 by omega]
        omega
      · rw [Nat.mod_eq_of_lt (by omega : s.current_process + 1 < 16)]
        omega
      · rw [show s.current_process = 15 by omega]
        omega
    have hpromote : promote s p = { s with
        current_process := p,
        processes := s.processes.set p (setState (s.processes.getD p pInit)
          ProcessState.running) } := by
      simp only [promote]
      rw [if_neg hnr]
    have hrun2 : ((process_schedule s).processes.getD p pInit).state = .running := by
      rw [hsched, hpromote]
      show ((s.processes.set p (setState (s.processes.getD p pInit)
        ProcessState.running)).getD p pInit).state = .running
      rw [getD_set_eq _ _ _ _ (by omega)]
      rfl
    refine ⟨hsched, hrun2, by rw [hsched, hpromote], ?_⟩
    rw [hsched, hpromote]
    have hno2 : ∀ i, i < 16 →
        i ≠ ({ s with
          current_process := p,
          processes := s.processes.set p (setState (s.processes.getD p pInit)
            ProcessState.running) } : OS).current_process →
        ((({ s with
          current_process := p,
          processes := s.processes.set p (setState (s.processes.getD p pInit)
            ProcessState.running) } : OS).processes.getD i pInit).state ≠ .ready) := by
      intro i hi hip
      show ((s.processes.set p (setState (s.processes.getD p pInit)
        ProcessState.running)).getD i pInit).state ≠ .ready
      rw [getD_set_ne _ _ _ _ _ (fun hx => hip hx.symm)]
      exact honly i hi hip
    simp only [process_schedule]
    rw [if_neg (show ¬ ({ s with
        current_process := p,
        processes := s.processes.set p (setState (s.processes.getD p pInit)
          ProcessState.running) } : OS).process_count = 0
      from (by omega : ¬ s.process_count = 0))]
    exact schedAux_no_ready _ hno2 16 _ (Nat.mod_lt _ (by omega))
  · intro hpc
    simp only [process_schedule]
    rw [if_neg (by omega : ¬ s.process_count = 0)]
    refine schedAux_no_ready s ?_ 16 _ (Nat.mod_lt _ (by omega))
    intro i hi hip
    exact honly i hi (by rw [← hpc] at hip; exact hip)

/-- C1 witness: after creating two processes and terminating pid 0, slot 1
is the unique live (ready) process and differs from the current slot 0; the
first schedule promotes it to `RUNNING` and the second leaves it there. -/
theorem C1_schedule_single_ready_witness :
    process_schedule (process_terminate 0
        (process_create [120] (process_create [119] os_init).2).2)
      = promote (process_terminate 0
        (process_create [120] (process_create [119] os_init).2).2) 1 ∧
    ((process_schedule (process_terminate 0
        (process_create [120] (process_create [119] os_init).2).2)).processes.getD
      1 pInit).state = .running ∧
    (process_schedule (process_terminate 0
        (process_create [120] (process_create [119] os_init).2).2)).current_process = 1 ∧
    process_schedule (process_schedule (process_terminate 0
        (process_create [120] (process_create [119] os_init).2).2))
      = process_schedule (process_terminate 0
        (process_create [120] (process_create [119] os_init).2).2) :=
  (C1_schedule_single_ready _ 1 (by decide) (by decide) (by decide) (by decide)
    (by decide) (by decide)).1 (by decide)

/-- C7: `fs_create` checks capacity before uniqueness — with no free slot it
fails with `-1` (table full) for every name, duplicate or fresh, leaving the
state unchanged; with a free slot it fails with `-2` (already exists) and
consumes no slot when an in-use entry matches the name; otherwise it
populates the lowest-index free slot. -/
theorem C7_fs_create_order (s : OS) (nm : List Nat) :
    ((∀ i, i < 32 → (s.file_table.getD i fInit).in_use = true) →
      fs_create nm s = (-1, s)) ∧
    (∀ k, k < 32 → (s.file_table.getD k fInit).in_use = false →
      (∀ m, m < k → (s.file_table.getD m fInit).in_use = true) →
      ((∃ j, j < 32 ∧ (s.file_table.getD j fInit).in_use = true ∧
          nameMatch (s.file_table.getD j fInit).filename nm = true) →
        fs_create nm s = (-2, s)) ∧
      ((∀ j, j < 32 → (s.file_table.getD j fInit).in_use = true →
          nameMatch (s.file_table.getD j fInit).filename nm = false) →
        fs_create nm s
          = ((k : Int), { s with file_table := s.file_table.set k (mkFile nm) }))) := by
  constructor
  · intro hall
    simp only [fs_create]
    rw [show findFreeFileAux s 0 32 = -1 from
      findFreeFileAux_full s 32 0 (fun m _ hm2 => hall m hm2)]
    rw [if_pos rfl]
  · intro k hk hkfree hmid
    have hfind : findFreeFileAux s 0 32 = (k : Int) :=
      findFreeFileAux_eq s k hk hkfree 32 0 (by omega) (by omega)
        (fun m _ hm2 => hmid m hm2)
    have hkne : ((k : Int)) ≠ -1 := by omega
    constructor
    · rintro ⟨j, hj, hju, hjm⟩
      simp only [fs_create]
      rw [hfind, if_neg hkne,
        if_pos ((dupAux_iff nm s 32 0 (by omega)).mpr ⟨j, by omega, hj, hju, hjm⟩)]
    · intro hnone
      simp only [fs_create]
      rw [hfind, if_neg hkne]
      have hdup : dupAux nm s 0 32 = false := by
        cases hD : dupAux nm s 0 32
        · rfl
        · exfalso
          obtain ⟨j, -, hj2, hj3, hj4⟩ := (dupAux_iff nm s 32 0 (by omega)).mp hD
          rw [hnone j hj2 hj3] at hj4
          exact Bool.noConfusion hj4
      rw [if_neg (by rw [hdup]; decide)]
      rw [Int.toNat_ofNat]

set_option maxRecDepth 100000 in
/-- C7 witness: with the table full, create fails `-1` even for a fresh
name; with free slots, creating an existing name fails `-2` unchanged, and a
fresh name takes the lowest free slot (slot 2 after two creates). -/
theorem C7_fs_create_order_witness :
    fs_create [99] (fsFill 32) = (-1, fsFill 32) ∧
    fs_create [1] (fsFill 2) = (-2, fsFill 2) ∧
    fs_create [99] (fsFill 2) = ((2 : Int),
      { fsFill 2 with file_table := (fsFill 2).file_table.set 2 (mkFile [99]) }) :=
  ⟨(C7_fs_create_order (fsFill 32) [99]).1 (by decide),
    ((C7_fs_create_order (fsFill 2) [1]).2 2 (by decide) (by decide)
      (by decide)).1 ⟨0, by decide, by decide, by decide⟩,
    ((C7_fs_create_order (fsFill 2) [99]).2 2 (by decide) (by decide)
      (by decide)).2 (by decide)⟩

/-! ### Name-comparison theory -/

/-- The copy loop writes nothing at or past index 31. -/
theorem copyAux_ge31 (s : List Nat) : ∀ (fuel i : Nat), 31 ≤ i → copyAux s i fuel = [] := by
  intro fuel i hi
  cases fuel with
  | zero => rfl
  | succ f =>
    simp only [copyAux]
    rw [if_neg (by omega)]

/-- Every byte the copy loop stores is nonzero. -/
theorem copyAux_nulFree (s : List Nat) :
    ∀ (fuel i : Nat), ∀ x ∈ copyAux s i fuel, x ≠ 0 := by
  intro fuel
  induction fuel with
  | zero => intro i x hx; exact absurd hx (by simp [copyAux])
  | succ f ih =>
    intro i x hx
    simp only [copyAux] at hx
    split at hx
    · next hcond =>
      rcases List.mem_cons.mp hx with h | h
      · rw [h]; exact hcond.1
      · exact ih (i + 1) x h
    · exact absurd hx (by simp)

/-- The copy loop stores at most `31 - i` bytes from index `i`. -/
theorem copyAux_length (s : List Nat) :
    ∀ (fuel i : Nat), (copyAux s i fuel).length ≤ 31 - i := by
  intro fuel
  induction fuel with
  | zero => intro i; simp [copyAux]
  | succ f ih =>
    intro i
    simp only [copyAux]
    split
    · next hcond =>
      have := ih (i + 1)
      simp only [List.length_cons]
      omega
    · simp

/-- Reading a 0-free C string yields 0 exactly at or past its end. -/
theorem cAt_zero (l : List Nat) (hN : ∀ x ∈ l, x ≠ 0) (j : Nat) :
    cAt l j = 0 ↔ l.length ≤ j := by
  unfold cAt
  rcases Nat.lt_or_ge j l.length with hj | hj
  · rw [List.getD_eq_getElem _ _ hj]
    constructor
    · intro h0
      exact absurd h0 (hN _ (List.getElem_mem hj))
    · intro h; omega
  · rw [List.getD_eq_getElem?_getD, List.getElem?_eq_none hj]
    simp [hj]

/-- Reading past the end of a C string yields the terminator. -/
theorem cAt_of_le (l : List Nat) (j : Nat) (h : l.length ≤ j) : cAt l j = 0 := by
  unfold cAt
  rw [List.getD_eq_getElem?_getD, List.getElem?_eq_none h]
  rfl

/-- The comparison loop from index `j` accepts exactly when the stored name
from `j` on equals the copy-truncation of the probe from `j` on — provided
the stored name is 0-free and fits the field, and the probe fits the field. -/
theorem matchAux_copy (st nm : List Nat) (hstN : ∀ x ∈ st, x ≠ 0)
    (hst : st.length ≤ 31) (hnm : nm.length ≤ 31) :
    ∀ (fuelM j fuelC : Nat), 32 ≤ j + fuelM → 31 ≤ j + fuelC →
      (matchAux st nm j fuelM = true ↔ st.drop j = copyAux nm j fuelC) := by
  intro fuelM
  induction fuelM with
  | zero =>
    intro j fuelC hfm hfc
    simp only [matchAux]
    constructor
    · intro _
      rw [List.drop_eq_nil_of_le (by omega), copyAux_ge31 nm fuelC j (by omega)]
    · intro _; trivial
  | succ fuelM ih =>
    intro j fuelC hfm hfc
    by_cases hj : j < 32
    · simp only [matchAux, if_pos hj]
      by_cases hab : cAt st j ≠ cAt nm j
      · rw [if_pos hab]
        constructor
        · intro hF; exact Bool.noConfusion hF
        · intro hEq
          exfalso
          by_cases hb : cAt nm j = 0
          · have ha : cAt st j ≠ 0 := by rw [hb] at hab; exact hab
            have hjst : j < st.length := by
              rcases Nat.lt_or_ge j st.length with h | h
              · exact h
              · exact absurd ((cAt_zero st hstN j).mpr h) ha
            have hcopy : copyAux nm j fuelC = [] := by
              cases fuelC with
              | zero => rfl
              | succ f =>
                simp only [copyAux]
                rw [if_neg (by simp [hb])]
            rw [hcopy] at hEq
            have hlen := congrArg List.length hEq
            rw [List.length_drop] at hlen
            simp at hlen
            omega
          · have hjnm : j < nm.length := by
              rcases Nat.lt_or_ge j nm.length with h | h
              · exact h
              · exact absurd (cAt_of_le nm j h) hb
            have hj31 : j < 31 := by omega
            obtain ⟨f, rfl⟩ : ∃ f, fuelC = f + 1 := ⟨fuelC - 1, by omega⟩
            have hcopy : copyAux nm j (f + 1) = cAt nm j :: copyAux nm (j + 1) f := by
              simp only [copyAux]
              rw [if_pos ⟨hb, hj31⟩]
            rw [hcopy] at hEq
            by_cases ha : cAt st j = 0
            · rw [List.drop_eq_nil_of_le ((cAt_zero st hstN j).mp ha)] at hEq
              exact List.noConfusion hEq
            · have hjst : j < st.length := by
                rcases Nat.lt_or_ge j st.length with h | h
                · exact h
                · exact absurd ((cAt_zero st hstN j).mpr h) ha
              rw [List.drop_eq_getElem_cons hjst] at hEq
              have hhead : st[j] = cAt nm j := (List.cons.injEq _ _ _ _ ▸ hEq).1
              apply hab
              show st.getD j 0 = cAt nm j
              rw [List.getD_eq_getElem _ _ hjst, hhead]
      · rw [if_neg hab]
        push_neg at hab
        by_cases hb : cAt nm j = 0
        · rw [if_pos hb]
          have ha : cAt st j = 0 := by rw [hab, hb]
          have h1 : st.drop j = [] := List.drop_eq_nil_of_le ((cAt_zero st hstN j).mp ha)
          have h2 : copyAux nm j fuelC = [] := by
            cases fuelC with
            | zero => rfl
            | succ f =>
              simp only [copyAux]
              rw [if_neg (by simp [hb])]
          constructor
          · intro _; rw [h1, h2]
          · intro _; rfl
        · rw [if_neg hb]
          have hjnm : j < nm.length := by
            rcases Nat.lt_or_ge j nm.length with h | h
            · exact h
            · exact absurd (cAt_of_le nm j h) hb
          have hj31 : j < 31 := by omega
          have ha : cAt st j ≠ 0 := by rw [hab]; exact hb
          have hjst : j < st.length := by
            rcases Nat.lt_or_ge j st.length with h | h
            · exact h
            · exact absurd ((cAt_zero st hstN j).mpr h) ha
          obtain ⟨f, rfl⟩ : ∃ f, fuelC = f + 1 := ⟨fuelC - 1, by omega⟩
          have hcopy : copyAux nm j (f + 1) = cAt nm j :: copyAux nm (j + 1) f := by
            simp only [copyAux]
            rw [if_pos ⟨hb, hj31⟩]
          rw [hcopy, List.drop_eq_getElem_cons hjst,
            ih (j + 1) f (by omega) (by omega)]
          have hhead : st[j] = cAt nm j := by
            rw [← hab]
            exact (List.getD_eq_getElem st 0 hjst).symm
          rw [hhead]
          simp
    · simp only [matchAux, if_neg hj]
      constructor
      · intro _
        rw [List.drop_eq_nil_of_le (by omega), copyAux_ge31 nm fuelC j (by omega)]
      · intro _; trivial

/-- The file-system name comparison accepts the probe `nm` against a stored
0-free, field-sized name exactly when the stored name equals the stored form
of `nm`. -/
theorem nameMatch_iff (st nm : List Nat) (hstN : ∀ x ∈ st, x ≠ 0)
    (hst : st.length ≤ 31) (hnm : nm.length ≤ 31) :
    nameMatch st nm = true ↔ st = copyName nm := by
  have h := matchAux_copy st nm hstN hst hnm 32 0 31 (by omega) (by omega)
  rw [List.drop_zero] at h
  exact h

/-- Reading any slot of a replicated list. -/
theorem getD_replicate {α : Type} (a d : α) (n i : Nat) (h : i < n) :
    (List.replicate n a).getD i d = a := by
  rw [List.getD_eq_getElem _ _ (by simpa using h)]
  exact List.getElem_replicate a (by simpa using h)

/-- The file-table invariant only depends on the file table. -/
theorem FsInv_of_table (s : OS) (ft : List FileEntry)
    (h1 : ft.length = 32)
    (h2 : ∀ i, i < 32 → (ft.getD i fInit).in_use = true →
      (∀ x ∈ (ft.getD i fInit).filename, x ≠ 0) ∧ (ft.getD i fInit).filename.length ≤ 31)
    (h3 : ∀ i j, i < 32 → j < 32 → i ≠ j →
      (ft.getD i fInit).in_use = true → (ft.getD j fInit).in_use = true →
      (ft.getD i fInit).filename ≠ (ft.getD j fInit).filename) :
    FsInv { s with file_table := ft } :=
  ⟨h1, h2, h3⟩

/-- The initial state satisfies the file-table invariant. -/
theorem FsInv_init : FsInv os_init := by
  refine ⟨by decide, by decide, ?_⟩
  intro i j hi hj hij hiu hju
  rw [show os_init.file_table = List.replicate 32 fInit from rfl,
    getD_replicate _ _ _ _ hi] at hiu
  exact absurd hiu (by decide)

/-- `fs_create` with a field-sized name preserves the file-table invariant. -/
theorem FsInv_create (nm : List Nat) (s : OS) (hnm : nm.length ≤ 31) (h : FsInv s) :
    FsInv (fs_create nm s).2 := by
  obtain ⟨hlen, hgood, huniq⟩ := h
  simp only [fs_create]
  rcases findFreeFileAux_spec s 32 0 with hfind | ⟨k, -, hk, hkfree, hfind⟩
  · rw [hfind, if_pos rfl]
    exact ⟨hlen, hgood, huniq⟩
  · rw [hfind, if_neg (by omega)]
    by_cases hdup : dupAux nm s 0 32 = true
    · rw [if_pos hdup]
      exact ⟨hlen, hgood, huniq⟩
    · rw [if_neg hdup]
      have hklen : k < s.file_table.length := by omega
      have hgk : (s.file_table.set k (mkFile nm)).getD k fInit = mkFile nm :=
        getD_set_eq _ _ _ _ hklen
      have hgne : ∀ m, m ≠ k →
          (s.file_table.set k (mkFile nm)).getD m fInit = s.file_table.getD m fInit :=
        fun m hm => getD_set_ne _ _ _ _ _ (fun hx => hm hx.symm)
      have hnomatch : ∀ j, j < 32 → (s.file_table.getD j fInit).in_use = true →
          nameMatch (s.file_table.getD j fInit).filename nm = false := by
        intro j hj hju
        cases hM : nameMatch (s.file_table.getD j fInit).filename nm
        · rfl
        · exact absurd ((dupAux_iff nm s 32 0 (by omega)).mpr ⟨j, by omega, hj, hju, hM⟩)
            hdup
      have hnoteq : ∀ j, j < 32 → (s.file_table.getD j fInit).in_use = true →
          (s.file_table.getD j fInit).filename ≠ copyName nm := by
        intro j hj hju hcontra
        have hgj := hgood j hj hju
        have := (nameMatch_iff (s.file_table.getD j fInit).filename nm
          hgj.1 hgj.2 hnm).mpr hcontra
        rw [hnomatch j hj hju] at this
        exact Bool.noConfusion this
      refine FsInv_of_table s (s.file_table.set k (mkFile nm)) (by simpa using hlen) ?_ ?_
      · intro i hi hiu
        by_cases hik : i = k
        · rw [hik, hgk]
          refine ⟨copyAux_nulFree nm 31 0, ?_⟩
          show (copyAux nm 0 31).length ≤ 31
          have := copyAux_length nm 31 0
          omega
        · rw [hgne i hik] at hiu ⊢
          exact hgood i hi hiu
      · intro i j hi hj hij hiu hju
        by_cases hik : i = k
        · have hjk : j ≠ k := fun h => hij (by rw [hik, h])
          rw [hik, hgk]
          rw [hgne j hjk] at hju ⊢
          intro hx
          exact hnoteq j hj hju (hx.symm)
        · by_cases hjk : j = k
          · rw [hjk, hgk]
            rw [hgne i hik] at hiu ⊢
            intro hx
            exact hnoteq i hi hiu hx
          · rw [hgne i hik] at hiu ⊢
            rw [hgne j hjk] at hju ⊢
            exact huniq i j hi hj hij hiu hju

/-- `fs_delete` preserves the file-table invariant. -/
theorem FsInv_delete (nm : List Nat) (s : OS) (h : FsInv s) :
    FsInv (fs_delete nm s).2 := by
  obtain ⟨hlen, hgood, huniq⟩ := h
  simp only [fs_delete]
  rcases fsDeleteAux_cases nm s 32 0 with heq | ⟨k, hk, -, heq⟩
  · rw [heq]
    exact ⟨hlen, hgood, huniq⟩
  · rw [heq]
    have hklen : k < s.file_table.length := by omega
    have hgk : (s.file_table.set k (clearUse (s.file_table.getD k fInit))).getD k fInit
        = clearUse (s.file_table.getD k fInit) := getD_set_eq _ _ _ _ hklen
    have hgne : ∀ m, m ≠ k →
        (s.file_table.set k (clearUse (s.file_table.getD k fInit))).getD m fInit
          = s.file_table.getD m fInit :=
      fun m hm => getD_set_ne _ _ _ _ _ (fun hx => hm hx.symm)
    refine FsInv_of_table s _ (by simpa using hlen) ?_ ?_
    · intro i hi hiu
      by_cases hik : i = k
      · rw [hik, hgk] at hiu
        exact absurd hiu (by simp [clearUse])
      · rw [hgne i hik] at hiu ⊢
        exact hgood i hi hiu
    · intro i j hi hj hij hiu hju
      by_cases hik : i = k
      · rw [hik, hgk] at hiu
        exact absurd hiu (by simp [clearUse])
      · by_cases hjk : j = k
        · rw [hjk, hgk] at hju
          exact absurd hju (by simp [clearUse])
        · rw [hgne i hik] at hiu ⊢
          rw [hgne j hjk] at hju ⊢
          exact huniq i j hi hj hij hiu hju

/-- Every state reachable by field-sized file operations satisfies the
file-table invariant. -/
theorem FsReach_inv (s : OS) (h : FsReach s) : FsInv s := by
  induction h with
  | init => exact FsInv_init
  | create t nm hnm _ ih => exact FsInv_create nm t hnm ih
  | delete t nm _ ih => exact FsInv_delete nm t ih

/-- C2 counterexample: creating the 32-byte name `'a' * 32` twice succeeds
both times — the duplicate check compares the raw 32-byte argument against
the 31-byte truncated stored name and misses — leaving two in-use entries
with identical stored filenames. -/
theorem C2_counterexample :
    ((fs_create (List.replicate 32 97)
        (fs_create (List.replicate 32 97) os_init).2).2.file_table.getD 0 fInit).in_use
      = true ∧
    ((fs_create (List.replicate 32 97)
        (fs_create (List.replicate 32 97) os_init).2).2.file_table.getD 1 fInit).in_use
      = true ∧
    ((fs_create (List.replicate 32 97)
        (fs_create (List.replicate 32 97) os_init).2).2.file_table.getD 0 fInit).filename
      = ((fs_create (List.replicate 32 97)
        (fs_create (List.replicate 32 97) os_init).2).2.file_table.getD 1 fInit).filename
      := by decide

/-- C2 (amended): in every state reachable by file create and delete where
every created filename fits the 32-byte field (at most 31 bytes), no two
in-use file-table entries store the same filename. -/
theorem C2_unique_stored_names (s : OS) (h : FsReach s) :
    ∀ i j, i < 32 → j < 32 → i ≠ j →
      (s.file_table.getD i fInit).in_use = true →
      (s.file_table.getD j fInit).in_use = true →
      (s.file_table.getD i fInit).filename ≠ (s.file_table.getD j fInit).filename :=
  (FsReach_inv s h).2.2

/-- C2 witness: after creating two short names the two in-use entries store
distinct filenames. -/
theorem C2_unique_stored_names_witness :
    ((fs_create [98] (fs_create [97] os_init).2).2.file_table.getD 0 fInit).filename
      ≠ ((fs_create [98] (fs_create [97] os_init).2).2.file_table.getD 1 fInit).filename :=
  C2_unique_stored_names _
    (FsReach.create _ [98] (by decide) (FsReach.create _ [97] (by decide) FsReach.init))
    0 1 (by decide) (by decide) (by decide) (by decide) (by decide)

/-! ### The fill-the-table scenario (C9) -/

/-- Reading inside the left part of an appended list. -/
theorem getD_append_lt {α : Type} (l1 l2 : List α) (i : Nat) (d : α) (h : i < l1.length) :
    (l1 ++ l2).getD i d = l1.getD i d := by
  rw [List.getD_eq_getElem _ _ (by rw [List.length_append]; omega),
    List.getD_eq_getElem _ _ h]
  exact List.getElem_append_left h

/-- Reading the appended singleton. -/
theorem getD_append_self {α : Type} (l : List α) (a : α) (d : α) :
    (l ++ [a]).getD l.length d = a := by
  rw [List.getD_eq_getElem _ _ (by rw [List.length_append]; simp)]
  rw [List.getElem_append_right (le_refl l.length)]
  simp

/-- The empty fill is the initialized system. -/
theorem FullSt_nil : FullSt [] = os_init := by decide

/-- One successful create step on a partially filled system: it returns the
next pid and extends the fill. -/
theorem create_FullSt (ns : List (List Nat)) (nm : List Nat) (h : ns.length < 16) :
    process_create nm (FullSt ns) = (Except.ok ns.length, FullSt (ns ++ [nm])) := by
  have hpget : ∀ i, i < 16 → (FullSt ns).processes.getD i pInit
      = if i < ns.length then mkReady i (i * 4096) (ns.getD i []) else pInit :=
    fun i hi => getD_range_map
      (fun i => if i < ns.length then mkReady i (i * 4096) (ns.getD i []) else pInit)
      16 i pInit hi
  have hmget : ∀ i, i < 16 → (FullSt ns).memory_map.getD i false = decide (i < ns.length) :=
    fun i hi => getD_range_map (fun i => decide (i < ns.length)) 16 i false hi
  simp only [process_create]
  rw [if_neg (show ¬ 16 ≤ (FullSt ns).process_count from
    by show ¬ 16 ≤ ns.length; omega)]
  have hfind : findSlotAux (FullSt ns) 0 16 = ns.length := by
    apply findSlotAux_eq (FullSt ns) ns.length h ?_ 16 0 (by omega) (by omega) ?_
    · rw [hpget ns.length h, if_neg (by omega)]
      rfl
    · intro m _ hm2
      rw [hpget m (by omega), if_pos hm2]
      simp [mkReady]
  rw [hfind, if_neg (by omega : ¬ 16 ≤ ns.length)]
  have halloc : memory_allocate (FullSt ns) = (ns.length * 4096,
      { FullSt ns with memory_map := (FullSt ns).memory_map.set ns.length true }) := by
    apply memAllocAux_eq (FullSt ns) ns.length h ?_ 16 0 (by omega) (by omega) ?_
    · rw [hmget ns.length h]
      exact decide_eq_false (by omega)
    · intro m _ hm2
      rw [hmget m (by omega)]
      exact decide_eq_true (by omega)
  rw [halloc]
  rw [if_neg (show ¬ ((ns.length * 4096,
      ({ FullSt ns with memory_map := (FullSt ns).memory_map.set ns.length true } : OS)) :
      Nat × OS).1 = 65535 from by show ¬ ns.length * 4096 = 65535; omega)]
  show (Except.ok ns.length,
    ({ memory_map := ((List.range 16).map (fun i => decide (i < ns.length))).set
        ns.length true,
       processes := ((List.range 16).map (fun i =>
         if i < ns.length then mkReady i (i * 4096) (ns.getD i []) else pInit)).set
         ns.length (mkReady ns.length (ns.length * 4096) nm),
       current_process := 0,
       process_count := (ns.length + 1) % 256,
       file_table := List.replicate 32 fInit } : OS))
    = (Except.ok ns.length, FullSt (ns ++ [nm]))
  have hmm : ((List.range 16).map (fun i => decide (i < ns.length))).set ns.length true
      = (List.range 16).map (fun i => decide (i < (ns ++ [nm]).length)) := by
    apply map_range_set 16 _ _ ns.length true h
    intro i hi
    rw [List.length_append, List.length_singleton]
    by_cases hin : ns.length = i
    · rw [if_pos hin, ← hin]
      exact decide_eq_true (by omega)
    · rw [if_neg hin]
      exact decide_eq_decide.mpr (by omega)
  have hpp : ((List.range 16).map (fun i =>
      if i < ns.length then mkReady i (i * 4096) (ns.getD i []) else pInit)).set
      ns.length (mkReady ns.length (ns.length * 4096) nm)
      = (List.range 16).map (fun i =>
        if i < (ns ++ [nm]).length then mkReady i (i * 4096) ((ns ++ [nm]).getD i [])
        else pInit) := by
    apply map_range_set 16 _ _ ns.length (mkReady ns.length (ns.length * 4096) nm) h
    intro i hi
    rw [List.length_append, List.length_singleton]
    by_cases hin : ns.length = i
    · rw [if_pos hin, if_pos (by omega), ← hin, getD_append_self]
    · rw [if_neg hin]
      by_cases hlt : i < ns.length
      · rw [if_pos (by omega), if_pos hlt, getD_append_lt _ _ _ _ hlt]
      · rw [if_neg (by omega), if_neg hlt]
  have hcnt : (ns.length + 1) % 256 = (ns ++ [nm]).length := by
    rw [List.length_append, List.length_singleton]
    exact Nat.mod_eq_of_lt (by omega)
  rw [FullSt, hmm, hpp, hcnt]

/-- Creating the names in `ns` (at most 16) in order from the initialized
system yields the filled state. -/
theorem createSeq_FullSt (ns : List (List Nat)) (h : ns.length ≤ 16) :
    createSeq ns os_init = FullSt ns := by
  induction ns using List.reverseRecOn with
  | nil => exact FullSt_nil.symm
  | append_singleton t a ih =>
    have hlen : t.length + 1 ≤ 16 := by
      rw [List.length_append, List.length_singleton] at h
      omega
    have hstep : createSeq (t ++ [a]) os_init
        = (process_create a (createSeq t os_init)).2 := by
      simp only [createSeq, List.foldl_append, List.foldl_cons, List.foldl_nil]
    rw [hstep, ih (by omega), create_FullSt t a (by omega)]

/-- Terminating process `k` in the fully filled system frees block `k`,
terminates slot `k`, and drops the count to 15. -/
theorem term_FullSt (ns : List (List Nat)) (k : Nat) (h16 : ns.length = 16)
    (hk : k < 16) : process_terminate k (FullSt ns) = KillSt ns k := by
  have hpget : ∀ i, i < 16 → (FullSt ns).processes.getD i pInit
      = if i < ns.length then mkReady i (i * 4096) (ns.getD i []) else pInit :=
    fun i hi => getD_range_map
      (fun i => if i < ns.length then mkReady i (i * 4096) (ns.getD i []) else pInit)
      16 i pInit hi
  have hkready : (FullSt ns).processes.getD k pInit
      = mkReady k (k * 4096) (ns.getD k []) := by
    rw [hpget k hk, if_pos (by omega)]
  have hguard : ¬ (16 ≤ k ∨
      ((FullSt ns).processes.getD k pInit).state = ProcessState.terminated) := by
    push_neg
    refine ⟨by omega, ?_⟩
    rw [hkready]
    simp [mkReady]
  simp only [process_terminate]
  rw [if_neg hguard]
  have hstart : ((FullSt ns).processes.getD k pInit).memory_start = k * 4096 := by
    rw [hkready]
    rfl
  rw [hstart]
  simp only [memory_free]
  rw [if_pos (show k * 4096 / 4096 < 16 from by omega)]
  show ({ memory_map := (FullSt ns).memory_map.set (k * 4096 / 4096) false,
          processes := (FullSt ns).processes.set k (setState
            ((FullSt ns).processes.getD k pInit) ProcessState.terminated),
          current_process := 0,
          process_count := (ns.length + 255) % 256,
          file_table := List.replicate 32 fInit } : OS) = KillSt ns k
  rw [show k * 4096 / 4096 = k from by omega, hkready, h16]
  have hmap : (FullSt ns).memory_map.set k false
      = (List.range 16).map (fun i => decide (i ≠ k)) := by
    show ((List.range 16).map (fun i => decide (i < ns.length))).set k false
      = (List.range 16).map (fun i => decide (i ≠ k))
    apply map_range_set 16 _ _ k false hk
    intro i hi
    by_cases hin : k = i
    · rw [if_pos hin]
      exact decide_eq_false (by omega)
    · rw [if_neg hin, h16]
      exact decide_eq_decide.mpr (by omega)
  have hproc : (FullSt ns).processes.set k (setState
      (mkReady k (k * 4096) (ns.getD k [])) ProcessState.terminated)
      = (List.range 16).map (fun i =>
        if i = k then setState (mkReady k (k * 4096) (ns.getD k []))
          ProcessState.terminated
        else mkReady i (i * 4096) (ns.getD i [])) := by
    show ((List.range 16).map (fun i =>
        if i < ns.length then mkReady i (i * 4096) (ns.getD i []) else pInit)).set k
        (setState (mkReady k (k * 4096) (ns.getD k [])) ProcessState.terminated)
      = (List.range 16).map (fun i =>
        if i = k then setState (mkReady k (k * 4096) (ns.getD k []))
          ProcessState.terminated
        else mkReady i (i * 4096) (ns.getD i []))
    apply map_range_set 16 _ _ k _ hk
    intro i hi
    by_cases hin : k = i
    · rw [if_pos hin, if_pos hin.symm]
    · rw [if_neg hin, if_neg (fun hx => hin hx.symm), if_pos (by omega)]
  rw [hmap, hproc]
  rfl

/-- Creating a fresh process after terminating slot `k` in the filled system
reuses slot `k` (and block `k`). -/
theorem create_KillSt (ns : List (List Nat)) (k : Nat) (nm : List Nat) (hk : k < 16) :
    (process_create nm (KillSt ns k)).1 = Except.ok k := by
  have hpget : ∀ i, i < 16 → (KillSt ns k).processes.getD i pInit
      = if i = k then setState (mkReady k (k * 4096) (ns.getD k []))
          ProcessState.terminated
        else mkReady i (i * 4096) (ns.getD i []) :=
    fun i hi => getD_range_map
      (fun i => if i = k then setState (mkReady k (k * 4096) (ns.getD k []))
          ProcessState.terminated
        else mkReady i (i * 4096) (ns.getD i [])) 16 i pInit hi
  have hmget : ∀ i, i < 16 → (KillSt ns k).memory_map.getD i false = decide (i ≠ k) :=
    fun i hi => getD_range_map (fun i => decide (i ≠ k)) 16 i false hi
  simp only [process_create]
  rw [if_neg (show ¬ 16 ≤ (KillSt ns k).process_count from by show ¬ 16 ≤ 15; omega)]
  have hfind : findSlotAux (KillSt ns k) 0 16 = k := by
    apply findSlotAux_eq _ k hk ?_ 16 0 (by omega) (by omega) ?_
    · rw [hpget k hk, if_pos rfl]
      rfl
    · intro m _ hm2
      rw [hpget m (by omega), if_neg (by omega)]
      simp [mkReady]
  rw [hfind, if_neg (by omega : ¬ 16 ≤ k)]
  have halloc : memory_allocate (KillSt ns k) = (k * 4096,
      { KillSt ns k with memory_map := (KillSt ns k).memory_map.set k true }) := by
    apply memAllocAux_eq _ k hk ?_ 16 0 (by omega) (by omega) ?_
    · rw [hmget k hk]
      exact decide_eq_false (by omega)
    · intro m _ hm2
      rw [hmget m (by omega)]
      exact decide_eq_true (by omega)
  rw [halloc]
  rw [if_neg (show ¬ ((k * 4096,
      ({ KillSt ns k with memory_map := (KillSt ns k).memory_map.set k true } : OS)) :
      Nat × OS).1 = 65535 from by show ¬ k * 4096 = 65535; omega)]

/-- C9: from the initialized system, each of the first 16 creates succeeds
with the next pid; a 17th create fails on the table-full path; and after
terminating any pid `k`, the next create succeeds and returns `k` (the
lowest-index free-slot policy reuses the freed slot). -/
theorem C9_fill_table_and_reuse (ns : List (List Nat)) (nm nmx : List Nat) (k j : Nat)
    (hlen : ns.length = 16) (hk : k < 16) (hj : j < 16) :
    (process_create (ns.getD j []) (createSeq (ns.take j) os_init)).1 = Except.ok j ∧
    (process_create nm (createSeq ns os_init)).1 = Except.error CreateErr.tableFull ∧
    (process_create nmx (process_terminate k (createSeq ns os_init))).1
      = Except.ok k := by
  refine ⟨?_, ?_, ?_⟩
  · have htake : (ns.take j).length = j := by
      rw [List.length_take]
      omega
    rw [createSeq_FullSt (ns.take j) (by omega),
      create_FullSt (ns.take j) (ns.getD j []) (by omega), htake]
  · rw [createSeq_FullSt ns (by omega)]
    simp only [process_create]
    rw [if_pos (show 16 ≤ (FullSt ns).process_count from by show 16 ≤ ns.length; omega)]
  · rw [createSeq_FullSt ns (by omega), term_FullSt ns k hlen hk]
    exact create_KillSt ns k nmx hk

/-- C9 witness: with 16 copies of the name `[97]`, the first create returns
pid 0, the 17th create fails table-full, and after terminating pid 0 the
next create returns pid 0 again. -/
theorem C9_fill_table_and_reuse_witness :
    (process_create ((List.replicate 16 ([97] : List Nat)).getD 0 [])
        (createSeq ((List.replicate 16 ([97] : List Nat)).take 0) os_init)).1
      = Except.ok 0 ∧
    (process_create [98] (createSeq (List.replicate 16 ([97] : List Nat)) os_init)).1
      = Except.error CreateErr.tableFull ∧
    (process_create [98] (process_terminate 0
        (createSeq (List.replicate 16 ([97] : List Nat)) os_init))).1
      = Except.ok 0 :=
  C9_fill_table_and_reuse (List.replicate 16 [97]) [98] [98] 0 0
    (by decide) (by decide) (by decide)

/-- C5 witness: terminating pid 0 of a one-process reachable system
terminates the slot, frees its block, decrements the count, and a repeated
terminate is a no-op. -/
theorem C5_terminate_spec_witness :
    ((process_terminate 0 (process_create [97] os_init).2).processes.getD 0 pInit).state
      = .terminated ∧
    (process_terminate 0 (process_create [97] os_init).2).memory_map.getD
      ((((process_create [97] os_init).2.processes.getD 0 pInit).memory_start / 4096))
      false = false ∧
    (process_terminate 0 (process_create [97] os_init).2).process_count
      = (process_create [97] os_init).2.process_count - 1 ∧
    process_terminate 0 (process_terminate 0 (process_create [97] os_init).2)
      = process_terminate 0 (process_create [97] os_init).2 :=
  ⟨((C5_terminate_spec _ (PReach.create _ [97] PReach.init) 0).2.1
      (by decide) (by decide)).1,
    ((C5_terminate_spec _ (PReach.create _ [97] PReach.init) 0).2.1
      (by decide) (by decide)).2.1,
    ((C5_terminate_spec _ (PReach.create _ [97] PReach.init) 0).2.1
      (by decide) (by decide)).2.2,
    (C5_terminate_spec _ (PReach.create _ [97] PReach.init) 0).2.2⟩
